import Mathlib

/-!
# opengithub: a shallow embedding of `main.go`

Go strings are modelled as lists of characters (`Str`). The standard-library
functions that `main.go` calls (`strings.*`, `strconv.Atoi`, `path/filepath.*`,
`os.ReadDir`) are modelled with their Unix behaviour; the file system and the
working directory are parameters of the model (`FS`).
-/

/-- A Go string. -/
abbrev Str := List Char

/-- Errors built by `main.go` and by the library functions it calls. -/
inductive Err where
  /-- `errors.New("only github repos supported")`. -/
  | onlyGithub
  /-- `strconv.ErrSyntax` wrapped in a `*NumError`. -/
  | syntaxErr (input : Str)
  /-- `strconv.ErrRange` wrapped in a `*NumError`. -/
  | rangeErr (input : Str)
  /-- `errors.New("cannot parse file line, contains multiple ':'")`. -/
  | multipleColons
  /-- `fmt.Errorf("cannot parse file line: %w", err)`. -/
  | parseLine (cause : Err)
  /-- An error reported by the operating system, identified by a code. -/
  | os (code : Nat)
  /-- `filepath.ErrBadPattern`. -/
  | badPattern
  /-- `fmt.Errorf("glob %v: %w", pattern, err)`. -/
  | globFailed (pattern : Str) (cause : Err)
  /-- `fmt.Errorf("multiple matches: %v", matches)`. -/
  | multipleMatches (found : List Str)
  /-- `fmt.Errorf("read dir %v: %w", root, err)`. -/
  | readDirFailed (root : Str) (cause : Err)
  /-- `fmt.Errorf("cannot find file: %w: %v", err, file)`. -/
  | cannotFindFile (cause : Err) (file : Str)
  /-- `fmt.Errorf("cannot find file in root: %v, %v", root, joined)`. -/
  | cannotFindInRoot (root : Str) (joined : Str)
  /-- `errors.New("unexpected error")`. -/
  | unexpected
  deriving DecidableEq, Repr

instance {ε α : Type} [DecidableEq ε] [DecidableEq α] : DecidableEq (Except ε α) :=
  fun a b =>
    match a, b with
    | .ok x, .ok y =>
      if h : x = y then isTrue (by rw [h]) else isFalse (fun e => h (by cases e; rfl))
    | .error x, .error y =>
      if h : x = y then isTrue (by rw [h]) else isFalse (fun e => h (by cases e; rfl))
    | .ok _, .error _ => isFalse (fun e => by cases e)
    | .error _, .ok _ => isFalse (fun e => by cases e)

namespace strings

/-- Go `strings.HasPrefix`. -/
def HasPrefix (s pre : Str) : Bool := pre.isPrefixOf s

/-- Go `strings.HasSuffix`. -/
def HasSuffix (s suf : Str) : Bool := suf.isSuffixOf s

/-- Go `strings.Index`: the position of the first occurrence of `substr` in
`s`; `none` stands for Go's `-1`. -/
def Index : Str → Str → Option Nat
  | [], substr => if substr.isPrefixOf [] then some 0 else none
  | c :: cs, substr =>
    if substr.isPrefixOf (c :: cs) then some 0
    else (Index cs substr).map (· + 1)

/-- Go `strings.Contains`. -/
def Contains (s substr : Str) : Bool := (Index s substr).isSome

/-- Go `strings.Replace(s, old, new, n)` for `n ≥ 0` and a non-empty `old`
(every call in `main.go` passes a non-empty literal and `n = 1`): the first `n`
occurrences of `old`, scanning left to right without overlap, become `new`. -/
def Replace (s old new : Str) : Nat → Str
  | 0 => s
  | n + 1 =>
    if old = new then s
    else match Index s old with
      | none => s
      | some j => s.take j ++ new ++ Replace (s.drop (j + old.length)) old new n

/-- Go `strings.Split(s, sep)` for a one-byte separator (`main.go` splits on
`":"` and on the path separator): the pieces of `s` between the separators,
always at least one piece. -/
def Split : Str → Char → List Str
  | [], _ => [[]]
  | c :: cs, sep =>
    if c = sep then [] :: Split cs sep
    else match Split cs sep with
      | [] => [[c]]
      | piece :: rest => (c :: piece) :: rest

/-- Go `strings.Join`. -/
def Join (elems : List Str) (sep : Str) : Str := sep.intercalate elems

end strings

namespace strconv

/-- The size in bits of Go's `int` (`strconv.IntSize`) on 64-bit platforms. -/
def IntSize : Nat := 64

/-- The loop of Go `strconv.ParseUint(s, 10, 64)`: each byte must be a decimal
digit (syntax error otherwise) and the value must stay below `2^64` (range
error otherwise); `n` is the value read so far. -/
def parseUintLoop (s0 : Str) : Str → Nat → Except Err Nat
  | [], n => .ok n
  | c :: cs, n =>
    if 48 ≤ c.toNat ∧ c.toNat ≤ 57 then
      if n ≥ (2 ^ 64 - 1) / 10 + 1 then .error (.rangeErr s0)
      else if n * 10 + (c.toNat - 48) > 2 ^ 64 - 1 then .error (.rangeErr s0)
      else parseUintLoop s0 cs (n * 10 + (c.toNat - 48))
    else .error (.syntaxErr s0)

/-- Go `strconv.ParseInt(s, 10, 0)`: an optional sign, then at least one
decimal digit, and a value that fits Go's `int`. -/
def ParseInt (s : Str) : Except Err Int :=
  if s = [] then .error (.syntaxErr s)
  else
    let neg : Bool := s.head? = some '-'
    let body : Str := if s.head? = some '+' ∨ s.head? = some '-' then s.tail else s
    if body = [] then .error (.syntaxErr s)
    else match parseUintLoop s body 0 with
      | .error e => .error e
      | .ok un =>
        if !neg ∧ un ≥ 2 ^ (IntSize - 1) then .error (.rangeErr s)
        else if neg ∧ un > 2 ^ (IntSize - 1) then .error (.rangeErr s)
        else .ok (if neg then -(un : Int) else (un : Int))

/-- Go `strconv.Atoi`: `ParseInt(s, 10, 0)` (the fast path for short inputs
computes the same result). -/
def Atoi (s : Str) : Except Err Int := ParseInt s

/-- The text `fmt.Sprintf("%d", n)` prints for an `int`. -/
def FormatInt (n : Int) : Str :=
  match n with
  | .ofNat m => Nat.toDigits 10 m
  | .negSucc m => '-' :: Nat.toDigits 10 (m + 1)

end strconv

namespace filepath

/-- Go `filepath.Separator` on Unix. -/
def Separator : Char := '/'

/-- Go `filepath.IsAbs` on Unix. -/
def IsAbs (path : Str) : Bool := strings.HasPrefix path [Separator]

/-- One step of `filepath.Clean` over the path elements: an empty element and
`.` are dropped; `..` removes the element before it when that is a name, is
dropped at the top of a rooted path, and is kept otherwise; a name is kept.
`out` holds the elements kept so far, last one first. -/
def cleanStep (rooted : Bool) (out : List Str) (elem : Str) : List Str :=
  if elem = [] ∨ elem = ['.'] then out
  else if elem = ['.', '.'] then
    match out with
    | [] => if rooted then [] else [elem]
    | top :: below => if top = ['.', '.'] then elem :: out else below
  else elem :: out

/-- Go `filepath.Clean` on Unix: the shortest path equivalent to `path` by
purely lexical processing. -/
def Clean (path : Str) : Str :=
  if path = [] then ['.']
  else
    let rooted := path.head? = some Separator
    let kept := ((strings.Split path Separator).foldl (cleanStep rooted) []).reverse
    let body := strings.Join kept [Separator]
    if rooted then Separator :: body
    else if body = [] then ['.'] else body

/-- Go `filepath.Join` on Unix: the elements from the first non-empty one on
are joined with the separator and the result is cleaned; with no non-empty
element the result is the empty string. -/
def Join : List Str → Str
  | [] => []
  | e :: rest => if e = [] then Join rest else Clean (strings.Join (e :: rest) [Separator])

end filepath

/-- Source `formatGitURL` in `main.go`: the pair of Go results `(string, error)`. -/
def formatGitURL (remote branch path : Str) (line : Int) : Str × Option Err :=
  if !strings.Contains remote "git@github.com:".toList then
    ([], some .onlyGithub)
  else
    let resp := strings.Replace remote ":".toList "/".toList 1
    let resp := strings.Replace resp "git@".toList "https://".toList 1
    let resp := strings.Replace resp ".git".toList
      ("/".toList ++ filepath.Join ["blob".toList, branch, path]) 1
    let resp := if line ≠ 0 then resp ++ ("#L".toList ++ strconv.FormatInt line) else resp
    (resp, none)

/-- Source `splitFileLine` in `main.go`: the triple of Go results
`(string, int, error)`. -/
def splitFileLine (txt : Str) : Str × Int × Option Err :=
  let split := strings.Split txt ':'
  if split.length > 2 then ([], 0, some .multipleColons)
  else if split.length = 1 then (txt, 0, none)
  else
    match strconv.Atoi (split.getD 1 []) with
    | .error e => ([], 0, some (.parseLine e))
    | .ok line => (split.getD 0 [], line, none)

/-- One entry of a directory listing (`os.DirEntry`): its name and whether it
is a directory. -/
structure DirEntry where
  name : Str
  isDir : Bool
  deriving DecidableEq, Repr

/-- The result of `os.ReadDir`: the entries in listing order, an error for
which `os.IsPermission` holds, or any other error. -/
inductive ReadDirResult where
  | entries (es : List DirEntry)
  | permission
  | failed (e : Err)
  deriving DecidableEq, Repr

/-- The environment `main.go` runs in: whether `os.Lstat` succeeds on a path,
what `filepath.Glob` returns for a pattern that contains a metacharacter, what
`os.ReadDir` returns for a directory, and what `os.Getwd` returns. -/
structure FS where
  lstat : Str → Bool
  globMeta : Str → Except Err (List Str)
  readDir : Str → ReadDirResult
  getwd : Except Err Str

namespace filepath

/-- Go `filepath.hasMeta` on Unix: whether the path contains one of the
characters `*`, `?`, `[` or the backslash. -/
def hasMeta (path : Str) : Bool :=
  path.any (fun c => c = '*' ∨ c = '?' ∨ c = '[' ∨ c = Char.ofNat 92)

/-- Go `filepath.Glob`: a pattern without metacharacters matches itself when
`os.Lstat` succeeds on it and nothing otherwise (such a pattern is never
malformed); for a pattern with metacharacters the result is the one of the
environment. -/
def Glob (fs : FS) (pattern : Str) : Except Err (List Str) :=
  if hasMeta pattern then fs.globMeta pattern
  else if fs.lstat pattern then .ok [pattern] else .ok []

end filepath

/-- How a call ends: it returns its Go results, or it panics (an index out of
range). -/
inductive Run (α : Type) where
  | ret (results : α)
  | panic
  deriving DecidableEq, Repr

/-- The loop `for _, entry := range entries` of `findFile`: `search dir` is the
recursive call `findFile(dir, splitFile)`; `none` means that a recursive call
did not finish. -/
def findFileEntries (search : Str → Option (Run (Str × Bool × Option Err))) (root : Str) :
    List DirEntry → Option (Run (Str × Bool × Option Err))
  | [] => some (.ret ([], false, none))
  | entry :: rest =>
    if !entry.isDir then findFileEntries search root rest
    else match search (filepath.Join [root, entry.name]) with
      | none => none
      | some .panic => some .panic
      | some (.ret (found, ok, err)) =>
        match err with
        | some e => some (.ret ([], false, some e))
        | none =>
          if ok then some (.ret (found, ok, none))
          else findFileEntries search root rest

/-- Source `findFile` in `main.go`, with a bound `fuel` on the depth of the
recursion: `none` means the bound was reached, `some r` that the call ended
with `r`, the Go results being `(string, bool, error)`. -/
def findFile (fs : FS) : Nat → Str → List Str → Option (Run (Str × Bool × Option Err))
  | 0, _, _ => none
  | fuel + 1, root, splitFile =>
    match splitFile with
    | [] => some .panic
    | pfx :: remaining =>
      match filepath.Glob fs (filepath.Join [root, pfx]) with
      | .error e =>
        some (.ret ([], false, some (.globFailed (filepath.Join [root, pfx]) e)))
      | .ok found =>
        if found.length > 1 then some (.ret ([], false, some (.multipleMatches found)))
        else if found.length = 1 ∧ remaining.length = 0 then
          some (.ret (found.getD 0 [], true, none))
        else if found.length = 1 then findFile fs fuel (found.getD 0 []) remaining
        else
          match fs.readDir root with
          | .permission => some (.ret ([], false, none))
          | .failed e => some (.ret ([], false, some (.readDirFailed root e)))
          | .entries es =>
            findFileEntries (fun dir => findFile fs fuel dir splitFile) root es

/-- The `if err != nil ... else if !ok ... else` chain of `findAbsPath` after
the call of `findFile`: `joined` is `filepath.Join(split[:i]...)`. -/
def findAbsPathResult (file root joined : Str) :
    Run (Str × Bool × Option Err) → Run (Str × Option Err)
  | .panic => .panic
  | .ret (abs, ok, err) =>
    match err with
    | some e => .ret ([], some (.cannotFindFile e file))
    | none =>
      if !ok then .ret ([], some (.cannotFindInRoot root joined))
      else .ret (abs, none)

/-- The loop `for i := 0; i < len(split); i++` of `findAbsPath`, with `todo`
iterations left and the loop variable at `i`. -/
def findAbsPathLoop (fs : FS) (fuel : Nat) (file root : Str) (split : List Str) :
    Nat → Nat → Option (Run (Str × Option Err))
  | 0, _ => some (.ret ([], some .unexpected))
  | todo + 1, i =>
    if strings.HasSuffix root (filepath.Join (split.take (i + 1))) then
      findAbsPathLoop fs fuel file root split todo (i + 1)
    else
      (findFile fs fuel root (split.drop i)).map
        (findAbsPathResult file root (filepath.Join (split.take i)))

/-- Source `findAbsPath` in `main.go`; `fuel` bounds the recursion of
`findFile`, and `none` means that the search did not finish within it. -/
def findAbsPath (fs : FS) (fuel : Nat) (file root : Str) : Option (Run (Str × Option Err)) :=
  if filepath.IsAbs file then some (.ret (file, none))
  else
    match (if root = [] then fs.getwd else .ok root) with
    | .error e => some (.ret ([], some e))
    | .ok root =>
      let split := strings.Split file filepath.Separator
      findAbsPathLoop fs fuel file root split split.length 0

/-! ## Notions used to state the properties -/

/-- The index `i` is the first one the loop of `findAbsPath` does not skip:
`root` ends with the joined segments `s0..sj` for every `j < i`, and not with
`s0..si`. -/
def FirstUnskipped (root : Str) (split : List Str) (i : Nat) : Prop :=
  i < split.length ∧
  (∀ j, j < i → strings.HasSuffix root (filepath.Join (split.take (j + 1))) = true) ∧
  strings.HasSuffix root (filepath.Join (split.take (i + 1))) = false

/-- The search `findFile(root, segs)` reaches the call `findFile(dir, rest)`:
by descending into the single match of the first segment, or by visiting a
subdirectory after every directory listed before it reported "not found". -/
inductive Reaches (fs : FS) : Str → List Str → Str → List Str → Prop where
  | here (root : Str) (segs : List Str) : Reaches fs root segs root segs
  | descend (root pfx m : Str) (remaining : List Str) (dir : Str) (rest : List Str) :
      filepath.Glob fs (filepath.Join [root, pfx]) = .ok [m] → remaining ≠ [] →
      Reaches fs m remaining dir rest → Reaches fs root (pfx :: remaining) dir rest
  | subdir (root pfx : Str) (remaining : List Str) (before after : List DirEntry)
      (entry : DirEntry) (dir : Str) (rest : List Str) :
      filepath.Glob fs (filepath.Join [root, pfx]) = .ok [] →
      fs.readDir root = .entries (before ++ entry :: after) → entry.isDir = true →
      (∀ x ∈ before, x.isDir = true → ∃ fuel out,
        findFile fs fuel (filepath.Join [root, x.name]) (pfx :: remaining)
          = some (.ret (out, false, none))) →
      Reaches fs (filepath.Join [root, entry.name]) (pfx :: remaining) dir rest →
      Reaches fs root (pfx :: remaining) dir rest

/-- A plain file name: not empty, without a separator, and neither `.` nor
`..`. -/
def IsName (f : Str) : Prop :=
  f ≠ [] ∧ filepath.Separator ∉ f ∧ f ≠ ['.'] ∧ f ≠ ['.', '.']

instance (f : Str) : Decidable (IsName f) :=
  inferInstanceAs (Decidable (f ≠ [] ∧ filepath.Separator ∉ f ∧ f ≠ ['.'] ∧ f ≠ ['.', '.']))

/-- The tree of directories under `dir` is finite, the listing of each of its
directories succeeds or is denied, and the path of `f` in each of them has no
glob metacharacter. -/
inductive FiniteTree (fs : FS) (f : Str) : Str → Prop where
  | denied (dir : Str) :
      filepath.hasMeta (filepath.Join [dir, f]) = false → fs.readDir dir = .permission →
      FiniteTree fs f dir
  | listed (dir : Str) (es : List DirEntry) :
      filepath.hasMeta (filepath.Join [dir, f]) = false → fs.readDir dir = .entries es →
      (∀ e ∈ es, e.isDir = true → FiniteTree fs f (filepath.Join [dir, e.name])) →
      FiniteTree fs f dir

/-- An entry named `f` exists in `dir` or in a directory of the tree under
`dir`. -/
inductive ExistsUnder (fs : FS) (f : Str) : Str → Prop where
  | inDir (dir : Str) : fs.lstat (filepath.Join [dir, f]) = true → ExistsUnder fs f dir
  | inSubdir (dir : Str) (es : List DirEntry) (e : DirEntry) :
      fs.readDir dir = .entries es → e ∈ es → e.isDir = true →
      ExistsUnder fs f (filepath.Join [dir, e.name]) → ExistsUnder fs f dir

/-- The directory `d` is the first one under `dir`, in the order of the search,
that contains an entry named `s0`: it is `dir` itself, or `dir` does not
contain `s0`, no subdirectory listed before the subdirectory `e` has `s0` in
its tree, and `d` is the first such directory under `e`. -/
inductive FirstOccurrence (fs : FS) (s0 : Str) : Str → Str → Prop where
  | here (dir : Str) :
      fs.lstat (filepath.Join [dir, s0]) = true → FirstOccurrence fs s0 dir dir
  | later (dir : Str) (before after : List DirEntry) (e : DirEntry) (d : Str) :
      fs.lstat (filepath.Join [dir, s0]) = false →
      fs.readDir dir = .entries (before ++ e :: after) → e.isDir = true →
      (∀ x ∈ before, x.isDir = true → ¬ ExistsUnder fs s0 (filepath.Join [dir, x.name])) →
      FirstOccurrence fs s0 (filepath.Join [dir, e.name]) d → FirstOccurrence fs s0 dir d

/-- The segments resolve from `dir`: each one exists in the directory reached
by joining the ones before it. -/
def resolves (fs : FS) : Str → List Str → Bool
  | _, [] => true
  | dir, s :: rest =>
    fs.lstat (filepath.Join [dir, s]) && resolves fs (filepath.Join [dir, s]) rest

/-- A non-empty, already-clean relative path: each of its segments between
separators is a plain name (not empty, not `.`, not `..`), so it neither
starts nor ends with a separator. -/
def IsCleanRel (p : Str) : Prop := ∀ seg ∈ strings.Split p filepath.Separator, IsName seg

instance (p : Str) : Decidable (IsCleanRel p) :=
  inferInstanceAs (Decidable (∀ seg ∈ strings.Split p filepath.Separator, IsName seg))

/-- The path obtained from `root` by joining the `names` one at a time:
`filepath.Join(... filepath.Join(root, n0) ..., nk)`. -/
def joinAll (root : Str) (names : List Str) : Str :=
  names.foldl (fun dir x => filepath.Join [dir, x]) root

/-- The components `names` lead from `root` to an entry found for the segments
`segs`: each component is the next requested segment, which exists where it is
joined, or the name of a subdirectory listed in the directory reached so far;
the last component is the last requested segment. -/
inductive Trail (fs : FS) : Str → List Str → List Str → Prop where
  | last (root s : Str) :
      fs.lstat (filepath.Join [root, s]) = true → Trail fs root [s] [s]
  | segment (root s : Str) (rest names : List Str) :
      fs.lstat (filepath.Join [root, s]) = true → rest ≠ [] →
      Trail fs (filepath.Join [root, s]) rest names → Trail fs root (s :: rest) (s :: names)
  | directory (root : Str) (es : List DirEntry) (e : DirEntry) (segs names : List Str) :
      fs.readDir root = .entries es → e ∈ es → e.isDir = true →
      Trail fs (filepath.Join [root, e.name]) segs names →
      Trail fs root segs (e.name :: names)

/-- No directory listed by the file system has a glob metacharacter in its
name. -/
def MetaFree (fs : FS) : Prop :=
  ∀ dir es e, fs.readDir dir = .entries es → e ∈ es → e.isDir = true →
    filepath.hasMeta e.name = false

/-- Every directory listed by the file system has a plain name. -/
def PlainDirs (fs : FS) : Prop :=
  ∀ dir es e, fs.readDir dir = .entries es → e ∈ es → e.isDir = true → IsName e.name

/-- The names of the directories in the result of a listing. -/
def listedDirs : ReadDirResult → List Str
  | .entries es => (es.filter (fun e => e.isDir)).map (fun e => e.name)
  | _ => []

/-! ## File systems for the examples -/

/-- A file system given by the paths that exist, the listings of its
directories and the matches of its patterns; a directory without a listing
cannot be found (`ENOENT`, code 2). -/
def mkFS (files : List Str) (dirs : List (Str × ReadDirResult))
    (globs : List (Str × List Str)) : FS where
  lstat := fun p => files.contains p
  globMeta := fun p => .ok ((globs.lookup p).getD [])
  readDir := fun p => ((dirs.lookup p).getD (.failed (.os 2)))
  getwd := .ok "/".toList

/-- The tree `/r/foo.go`. -/
def fsOneFile : FS :=
  mkFS ["/r".toList, "/r/foo.go".toList]
    [("/r".toList, .entries [⟨"foo.go".toList, false⟩])] []

/-- The tree with the empty directory `/r/a` and the file `/r/b/foo.go`. -/
def fsTwoDirs : FS :=
  mkFS ["/r".toList, "/r/a".toList, "/r/b".toList, "/r/b/foo.go".toList]
    [("/r".toList, .entries [⟨"a".toList, true⟩, ⟨"b".toList, true⟩]),
     ("/r/a".toList, .entries []),
     ("/r/b".toList, .entries [⟨"foo.go".toList, false⟩])] []

/-- The tree of `fsTwoDirs` where listing `/r/a` fails with an input/output
error (`EIO`, code 5). -/
def fsIoError : FS :=
  mkFS ["/r".toList, "/r/a".toList, "/r/b".toList, "/r/b/foo.go".toList]
    [("/r".toList, .entries [⟨"a".toList, true⟩, ⟨"b".toList, true⟩]),
     ("/r/a".toList, .failed (.os 5)),
     ("/r/b".toList, .entries [⟨"foo.go".toList, false⟩])] []

/-- The tree `/r/d/a.go`, `/r/d/b.go`, where the pattern `/r/d/*.go` matches
both files and the pattern `/r/*.go` matches nothing. -/
def fsTwoMatches : FS :=
  mkFS ["/r".toList, "/r/d".toList, "/r/d/a.go".toList, "/r/d/b.go".toList]
    [("/r".toList, .entries [⟨"d".toList, true⟩]),
     ("/r/d".toList, .entries [⟨"a.go".toList, false⟩, ⟨"b.go".toList, false⟩])]
    [("/r/d/*.go".toList, ["/r/d/a.go".toList, "/r/d/b.go".toList])]

/-- The tree `/r/u/foo.go` where `/r/u` may be searched but not listed (mode
`--x`): `os.Lstat` succeeds on `/r/u/foo.go` and listing `/r/u` is denied. -/
def fsSearchOnly : FS :=
  mkFS ["/r".toList, "/r/u".toList, "/r/u/foo.go".toList]
    [("/r".toList, .entries [⟨"u".toList, true⟩]),
     ("/r/u".toList, .permission)] []

/-- The tree with the unreadable directory `/r/p` and the file `/r/s/foo.go`;
the listing of `/r` is in the order of the names, `p` before `s`. -/
def fsDenied : FS :=
  mkFS ["/r".toList, "/r/p".toList, "/r/s".toList, "/r/s/foo.go".toList]
    [("/r".toList, .entries [⟨"p".toList, true⟩, ⟨"s".toList, true⟩]),
     ("/r/p".toList, .permission),
     ("/r/s".toList, .entries [⟨"foo.go".toList, false⟩])] []

/-- The tree `/r/a/x/b`: the directory `x` stands between `a` and `b`. -/
def fsDeep : FS :=
  mkFS ["/r".toList, "/r/a".toList, "/r/a/x".toList, "/r/a/x/b".toList]
    [("/r".toList, .entries [⟨"a".toList, true⟩]),
     ("/r/a".toList, .entries [⟨"x".toList, true⟩]),
     ("/r/a/x".toList, .entries [⟨"b".toList, false⟩])] []

/-- The tree with the file `/r/foo.go` and the empty directory `/r/sub`. -/
def fsParent : FS :=
  mkFS ["/r".toList, "/r/foo.go".toList, "/r/sub".toList]
    [("/r".toList, .entries [⟨"foo.go".toList, false⟩, ⟨"sub".toList, true⟩]),
     ("/r/sub".toList, .entries [])] []

/-- The tree with the files `/r/a/foo.go` and `/r/b/foo.go`, with `a` listed
before `b`. -/
def fsSiblings : FS :=
  mkFS ["/r".toList, "/r/a".toList, "/r/a/foo.go".toList, "/r/b".toList,
      "/r/b/foo.go".toList]
    [("/r".toList, .entries [⟨"a".toList, true⟩, ⟨"b".toList, true⟩]),
     ("/r/a".toList, .entries [⟨"foo.go".toList, false⟩]),
     ("/r/b".toList, .entries [⟨"foo.go".toList, false⟩])] []

/-- The tree with the empty directory `/r/a*` and the files `/r/ab/foo.go` and
`/r/ac/foo.go`; as a pattern, `/r/a*/foo.go` matches both files. -/
def fsStarDir : FS :=
  mkFS ["/r".toList, "/r/a*".toList, "/r/ab".toList, "/r/ab/foo.go".toList,
      "/r/ac".toList, "/r/ac/foo.go".toList]
    [("/r".toList, .entries [⟨"a*".toList, true⟩, ⟨"ab".toList, true⟩, ⟨"ac".toList, true⟩]),
     ("/r/a*".toList, .entries []),
     ("/r/ab".toList, .entries [⟨"foo.go".toList, false⟩]),
     ("/r/ac".toList, .entries [⟨"foo.go".toList, false⟩])]
    [("/r/a*/foo.go".toList, ["/r/ab/foo.go".toList, "/r/ac/foo.go".toList])]

/-- The tree with the empty directory `/r/a` and the file `/r/c/a/foo.go`. -/
def fsFalseStart : FS :=
  mkFS ["/r".toList, "/r/a".toList, "/r/c".toList, "/r/c/a".toList, "/r/c/a/foo.go".toList]
    [("/r".toList, .entries [⟨"a".toList, true⟩, ⟨"c".toList, true⟩]),
     ("/r/a".toList, .entries []),
     ("/r/c".toList, .entries [⟨"a".toList, true⟩]),
     ("/r/c/a".toList, .entries [⟨"foo.go".toList, false⟩])] []

/-- The tree `/r/xfoo.go/foo.go`: the name of the directory `/r/xfoo.go` ends
with `foo.go`. -/
def fsSuffixRoot : FS :=
  mkFS ["/r".toList, "/r/xfoo.go".toList, "/r/xfoo.go/foo.go".toList]
    [("/r".toList, .entries [⟨"xfoo.go".toList, true⟩]),
     ("/r/xfoo.go".toList, .entries [⟨"foo.go".toList, false⟩])] []

/-! ## Notions used to state the properties of `splitFileLine` -/

/-- The natural number denoted by a string of decimal digits, most significant
digit first. -/
def decimalValue (ds : Str) : Nat :=
  Nat.ofDigits 10 (ds.reverse.map (fun c => c.toNat - 48))

/-- A decimal digit. -/
def IsDigit (c : Char) : Prop := 48 ≤ c.toNat ∧ c.toNat ≤ 57

instance (c : Char) : Decidable (IsDigit c) :=
  inferInstanceAs (Decidable (48 ≤ c.toNat ∧ c.toNat ≤ 57))

/-- A non-empty string of decimal digits. -/
def IsDecimal (ds : Str) : Prop := ds ≠ [] ∧ ∀ c ∈ ds, IsDigit c

instance (ds : Str) : Decidable (IsDecimal ds) :=
  inferInstanceAs (Decidable (ds ≠ [] ∧ ∀ c ∈ ds, IsDigit c))

/-- An optional sign followed by a non-empty string of decimal digits. -/
def IsSignedDecimal (t : Str) : Prop :=
  IsDecimal t ∨ ((t.head? = some '+' ∨ t.head? = some '-') ∧ IsDecimal t.tail)

instance (t : Str) : Decidable (IsSignedDecimal t) :=
  inferInstanceAs (Decidable
    (IsDecimal t ∨ ((t.head? = some '+' ∨ t.head? = some '-') ∧ IsDecimal t.tail)))

/-! ## Strings -/

namespace strings

theorem Index_isSome_iff (s old : Str) : (Index s old).isSome = true ↔ old <:+: s := by
  induction s with
  | nil =>
    cases old with
    | nil => simp [Index]
    | cons c cs => simp [Index, List.isPrefixOf]
  | cons c cs ih =>
    rw [List.infix_cons_iff, ← ih, ← List.isPrefixOf_iff_prefix]
    by_cases h : old.isPrefixOf (c :: cs) = true
    · simp [Index, h]
    · simp [Index, h]

theorem Contains_iff (s old : Str) : Contains s old = true ↔ old <:+: s :=
  Index_isSome_iff s old

theorem Split_ne_nil (s : Str) (sep : Char) : Split s sep ≠ [] := by
  induction s with
  | nil => simp [Split]
  | cons c cs ih =>
    unfold Split
    split
    · simp
    · split <;> simp

theorem Split_of_not_mem (s : Str) (sep : Char) (h : sep ∉ s) : Split s sep = [s] := by
  induction s with
  | nil => rfl
  | cons c cs ih =>
    have hc : c ≠ sep := fun e => h (by simp [e])
    have hcs : sep ∉ cs := fun e => h (by simp [e])
    simp [Split, hc, ih hcs]

theorem Split_append_sep (a b : Str) (sep : Char) :
    Split (a ++ sep :: b) sep = Split a sep ++ Split b sep := by
  induction a with
  | nil => simp [Split]
  | cons c cs ih =>
    by_cases hc : c = sep
    · simp [Split, hc, ih]
    · have hne := Split_ne_nil cs sep
      cases hs : Split cs sep with
      | nil => exact absurd hs hne
      | cons piece rest => simp [Split, hc, ih, hs]

end strings

/-! ## `strconv.Atoi` -/

theorem digitChar_toNat (k : Nat) (h : k < 10) :
    48 ≤ (Nat.digitChar k).toNat ∧ (Nat.digitChar k).toNat ≤ 57 ∧ (Nat.digitChar k).toNat - 48 = k := by
  interval_cases k <;> decide

theorem decimalValue_append_single (xs : Str) (c : Char) :
    decimalValue (xs ++ [c]) = 10 * decimalValue xs + (c.toNat - 48) := by
  simp [decimalValue, Nat.ofDigits_cons]
  ring

theorem decimalValue_cons (c : Char) (cs : Str) :
    decimalValue (c :: cs) = (c.toNat - 48) * 10 ^ cs.length + decimalValue cs := by
  simp [decimalValue, Nat.ofDigits_append]
  ring

theorem toDigitsCore_acc (fuel n : Nat) (acc : List Char) :
    Nat.toDigitsCore 10 fuel n acc = Nat.toDigitsCore 10 fuel n [] ++ acc := by
  induction fuel generalizing n acc with
  | zero => simp [Nat.toDigitsCore]
  | succ fuel ih =>
    simp only [Nat.toDigitsCore]
    split
    · simp
    · rw [ih, ih (n / 10) [_]]
      simp

theorem toDigitsCore_spec (fuel n : Nat) (h : n < fuel) :
    decimalValue (Nat.toDigitsCore 10 fuel n []) = n ∧
      (∀ c ∈ Nat.toDigitsCore 10 fuel n [], IsDigit c) ∧ Nat.toDigitsCore 10 fuel n [] ≠ [] := by
  induction fuel generalizing n with
  | zero => omega
  | succ fuel ih =>
    have hd := digitChar_toNat (n % 10) (Nat.mod_lt _ (by decide))
    simp only [Nat.toDigitsCore]
    split
    · rename_i h0
      refine ⟨?_, ?_, by simp⟩
      · simp [decimalValue, hd.2.2]
        omega
      · intro c hc
        simp at hc
        subst hc
        exact ⟨hd.1, hd.2.1⟩
    · rename_i h0
      have hlt : n / 10 < fuel := by omega
      obtain ⟨h1, h2, h3⟩ := ih (n / 10) hlt
      rw [toDigitsCore_acc]
      refine ⟨?_, ?_, by simp [h3]⟩
      · rw [decimalValue_append_single, h1, hd.2.2]
        omega
      · intro c hc
        simp at hc
        rcases hc with hc | hc
        · exact h2 c hc
        · subst hc
          exact ⟨hd.1, hd.2.1⟩

theorem toDigits_spec (n : Nat) :
    decimalValue (Nat.toDigits 10 n) = n ∧
      (∀ c ∈ Nat.toDigits 10 n, IsDigit c) ∧ Nat.toDigits 10 n ≠ [] :=
  toDigitsCore_spec (n + 1) n (Nat.lt_succ_self n)

namespace strconv

theorem parseUintLoop_digits (s0 : Str) (ds : Str) (n : Nat) (hd : ∀ c ∈ ds, IsDigit c)
    (hv : n * 10 ^ ds.length + decimalValue ds < 2 ^ 64) :
    parseUintLoop s0 ds n = .ok (n * 10 ^ ds.length + decimalValue ds) := by
  induction ds generalizing n with
  | nil => simp [parseUintLoop, decimalValue]
  | cons c cs ih =>
    have hc : IsDigit c := hd c (by simp)
    have hcs : ∀ x ∈ cs, IsDigit x := fun x hx => hd x (by simp [hx])
    have hpos : 1 ≤ 10 ^ cs.length := Nat.one_le_pow _ _ (by decide)
    have heq : n * 10 ^ (c :: cs).length + decimalValue (c :: cs)
        = (n * 10 + (c.toNat - 48)) * 10 ^ cs.length + decimalValue cs := by
      rw [decimalValue_cons, List.length_cons, pow_succ]
      ring
    rw [heq] at hv ⊢
    have hle : n * 10 + (c.toNat - 48) ≤ (n * 10 + (c.toNat - 48)) * 10 ^ cs.length :=
      Nat.le_mul_of_pos_right _ hpos
    have h1 : ¬ n ≥ (2 ^ 64 - 1) / 10 + 1 := by omega
    have h2 : ¬ n * 10 + (c.toNat - 48) > 2 ^ 64 - 1 := by omega
    have hc2 : 48 ≤ c.toNat ∧ c.toNat ≤ 57 := hc
    simp only [parseUintLoop, hc2, and_self, if_true, h1, h2, if_false]
    exact ih _ hcs hv

theorem parseUintLoop_ok (s0 : Str) (ds : Str) (n v : Nat)
    (h : parseUintLoop s0 ds n = .ok v) : ∀ c ∈ ds, IsDigit c := by
  induction ds generalizing n with
  | nil => simp
  | cons c cs ih =>
    simp only [parseUintLoop] at h
    split at h
    · rename_i hc
      split at h
      · cases h
      · split at h
        · cases h
        · intro x hx
          simp at hx
          rcases hx with hx | hx
          · subst hx; exact hc
          · exact ih _ h x hx
    · cases h

theorem Atoi_digits (ds : Str) (hne : ds ≠ []) (hd : ∀ c ∈ ds, IsDigit c)
    (hv : decimalValue ds < 2 ^ 63) : Atoi ds = .ok (decimalValue ds : Int) := by
  cases ds with
  | nil => exact absurd rfl hne
  | cons c cs =>
    have hc : IsDigit c := hd c (by simp)
    have hplus : c ≠ '+' := by
      rintro rfl
      exact absurd hc (by simp [IsDigit])
    have hminus : c ≠ '-' := by
      rintro rfl
      exact absurd hc (by simp [IsDigit])
    have hl := parseUintLoop_digits (c :: cs) (c :: cs) 0 hd (by omega)
    simp only [Nat.zero_mul, Nat.zero_add] at hl
    have hnot : ¬ decimalValue (c :: cs) ≥ 2 ^ 63 := by omega
    simp [Atoi, ParseInt, hplus, hminus, hl, IntSize]
    omega

theorem ParseInt_body_ok (s0 body : Str) (neg : Bool) (v : Int)
    (h : (match parseUintLoop s0 body 0 with
      | .error e => Except.error e
      | .ok un =>
        if !neg ∧ un ≥ 2 ^ (IntSize - 1) then .error (.rangeErr s0)
        else if neg ∧ un > 2 ^ (IntSize - 1) then .error (.rangeErr s0)
        else .ok (if neg then -(un : Int) else (un : Int))) = .ok v) :
    (∀ c ∈ body, IsDigit c) ∧ -(2 : Int) ^ 63 ≤ v ∧ v < 2 ^ 63 := by
  split at h
  · cases h
  · rename_i un hl
    have hdig := parseUintLoop_ok _ _ _ _ hl
    simp only [IntSize] at h
    split at h
    · cases h
    · rename_i hr1
      split at h
      · cases h
      · rename_i hr2
        injection h with h
        refine ⟨hdig, ?_⟩
        cases neg <;> simp at hr1 hr2 h <;> omega

theorem Atoi_ok (t : Str) (v : Int) (h : Atoi t = .ok v) :
    IsSignedDecimal t ∧ -(2 : Int) ^ 63 ≤ v ∧ v < 2 ^ 63 := by
  cases t with
  | nil => simp [Atoi, ParseInt] at h
  | cons c cs =>
    by_cases hm : c = '-'
    · subst hm
      by_cases hcs : cs = []
      · simp [Atoi, ParseInt, hcs] at h
      · simp only [Atoi, ParseInt] at h
        simp [hcs] at h
        have := ParseInt_body_ok ('-' :: cs) cs true v (by simpa using h)
        exact ⟨Or.inr ⟨Or.inr rfl, hcs, this.1⟩, this.2⟩
    · by_cases hp : c = '+'
      · subst hp
        by_cases hcs : cs = []
        · simp [Atoi, ParseInt, hcs] at h
        · simp only [Atoi, ParseInt] at h
          simp [hcs] at h
          have := ParseInt_body_ok ('+' :: cs) cs false v (by simpa using h)
          exact ⟨Or.inr ⟨Or.inl rfl, hcs, this.1⟩, this.2⟩
      · simp only [Atoi, ParseInt] at h
        simp [hm, hp] at h
        have := ParseInt_body_ok (c :: cs) (c :: cs) false v (by simpa using h)
        exact ⟨Or.inl ⟨by simp, this.1⟩, this.2⟩

end strconv

/-! ## `splitFileLine` -/

theorem splitFileLine_one_colon (p t : Str) (hp : ':' ∉ p) (ht : ':' ∉ t) :
    splitFileLine (p ++ ':' :: t) =
      match strconv.Atoi t with
      | .error e => ([], 0, some (.parseLine e))
      | .ok line => (p, line, none) := by
  have hs : strings.Split (p ++ ':' :: t) ':' = [p, t] := by
    rw [strings.Split_append_sep, strings.Split_of_not_mem p _ hp,
      strings.Split_of_not_mem t _ ht]
    rfl
  simp [splitFileLine, hs]

theorem not_colon_of_isDigit (ds : Str) (hd : ∀ c ∈ ds, IsDigit c) : ':' ∉ ds := by
  intro h
  have := hd _ h
  simp [IsDigit] at this

/-- C5 (amended): for every colon-free path `p`, a non-empty string `ds` of
decimal digits whose value is at most `2^63 - 1` (the largest Go `int`) is
parsed: `splitFileLine (p ++ ":" ++ ds)` succeeds with path `p` and the line
denoted by `ds`; in particular `p ++ ":" ++ decimal n` gives `(p, n)` for
every `n < 2^63`. -/
theorem splitFileLine_digits (p ds : Str) (n : Nat) (hp : ':' ∉ p) (hds : IsDecimal ds)
    (hv : decimalValue ds < 2 ^ 63) (hn : n < 2 ^ 63) :
    splitFileLine (p ++ ':' :: ds) = (p, (decimalValue ds : Int), none) ∧
      splitFileLine (p ++ ':' :: strconv.FormatInt (n : Int)) = (p, (n : Int), none) := by
  constructor
  · rw [splitFileLine_one_colon p ds hp (not_colon_of_isDigit ds hds.2),
      strconv.Atoi_digits ds hds.1 hds.2 hv]
  · obtain ⟨h1, h2, h3⟩ := toDigits_spec n
    have hf : strconv.FormatInt (n : Int) = Nat.toDigits 10 n := rfl
    rw [hf, splitFileLine_one_colon p _ hp (not_colon_of_isDigit _ h2),
      strconv.Atoi_digits _ h3 h2 (by rw [h1]; exact hn), h1]

/-- C5 (counterexample): the digits of `2^63` after the colon are rejected,
because the value does not fit Go's `int`. -/
theorem splitFileLine_digits_overflow :
    IsDecimal "9223372036854775808".toList ∧
      splitFileLine "a.go:9223372036854775808".toList
        = ([], 0, some (.parseLine (.rangeErr "9223372036854775808".toList))) := by
  decide

/-- C5 (witness): the amended claim at `a.go:42` and at the number `7`. -/
theorem splitFileLine_digits_witness :
    (':' ∉ "a.go".toList ∧ IsDecimal "42".toList ∧ decimalValue "42".toList < 2 ^ 63 ∧
      7 < 2 ^ 63) ∧
    (splitFileLine ("a.go".toList ++ ':' :: "42".toList)
        = ("a.go".toList, (decimalValue "42".toList : Int), none) ∧
      splitFileLine ("a.go".toList ++ ':' :: strconv.FormatInt ((7 : Nat) : Int))
        = ("a.go".toList, ((7 : Nat) : Int), none)) :=
  ⟨⟨by decide, by decide, by decide, by norm_num⟩,
    splitFileLine_digits "a.go".toList "42".toList 7 (by decide) (by decide)
      (by decide) (by norm_num)⟩

/-- C6 (amended): when the text after the only colon is not an optional sign
followed by a non-empty string of decimal digits, `splitFileLine` fails; and
the line of every successful call lies between `-2^63` and `2^63 - 1` (it can
be negative). -/
theorem splitFileLine_rejects (p t txt q : Str) (line : Int) (hp : ':' ∉ p) (ht : ':' ∉ t)
    (hns : ¬ IsSignedDecimal t) (hok : splitFileLine txt = (q, line, none)) :
    (∃ e, splitFileLine (p ++ ':' :: t) = ([], 0, some (.parseLine e))) ∧
      -(2 : Int) ^ 63 ≤ line ∧ line < 2 ^ 63 := by
  constructor
  · rw [splitFileLine_one_colon p t hp ht]
    cases h : strconv.Atoi t with
    | error e => exact ⟨e, rfl⟩
    | ok v => exact absurd (strconv.Atoi_ok t v h).1 hns
  · simp only [splitFileLine] at hok
    split at hok
    · simp at hok
    · split at hok
      · simp only [Prod.mk.injEq] at hok
        rw [← hok.2.1]
        constructor <;> norm_num
      · split at hok
        · simp at hok
        · rename_i v h
          simp only [Prod.mk.injEq] at hok
          rw [← hok.2.1]
          exact (strconv.Atoi_ok _ v h).2

/-- C6 (witness): the amended claim at `a.go:x5`, which is rejected, and at
`a.go:-5`, whose line is `-5`. -/
theorem splitFileLine_rejects_witness :
    (':' ∉ "a.go".toList ∧ ':' ∉ "x5".toList ∧ ¬ IsSignedDecimal "x5".toList ∧
      splitFileLine "a.go:-5".toList = ("a.go".toList, -5, none)) ∧
    ((∃ e, splitFileLine ("a.go".toList ++ ':' :: "x5".toList)
        = ([], 0, some (.parseLine e))) ∧
      -(2 : Int) ^ 63 ≤ -5 ∧ (-5 : Int) < 2 ^ 63) :=
  ⟨by decide,
    splitFileLine_rejects "a.go".toList "x5".toList "a.go:-5".toList "a.go".toList (-5)
      (by decide) (by decide) (by decide) (by decide)⟩

/-- C6 (counterexample): a signed number after the colon is accepted, and the
line returned is negative. -/
theorem splitFileLine_signed_accepted :
    splitFileLine "a.go:-5".toList = ("a.go".toList, -5, none) ∧
      splitFileLine "a.go:+5".toList = ("a.go".toList, 5, none) := by
  decide

/-! ## Occurrences, replacement and cleaning -/

namespace strings

theorem Index_of_leading (s old : Str) (h : old <+: s) : Index s old = some 0 := by
  have h2 : old.isPrefixOf s = true := List.isPrefixOf_iff_prefix.mpr h
  cases s with
  | nil => simp [Index, h2]
  | cons c cs => simp [Index, h2]

theorem Index_first (a old b : Str) (h : ¬ old <:+: a ++ old.dropLast) :
    Index (a ++ old ++ b) old = some a.length := by
  induction a with
  | nil => simpa using Index_of_leading (old ++ b) old (List.prefix_append _ _)
  | cons c cs ih =>
    have hcs : ¬ old <:+: cs ++ old.dropLast := by
      intro hin
      apply h
      simp only [List.cons_append]
      exact List.infix_cons_iff.mpr (Or.inr hin)
    have hnp : ¬ old.isPrefixOf (c :: cs ++ old ++ b) = true := by
      rw [List.isPrefixOf_iff_prefix]
      intro hp
      apply h
      have h1 : (c :: cs) ++ old.dropLast <+: c :: cs ++ old ++ b := by
        rw [List.append_assoc]
        apply (List.prefix_append_right_inj _).mpr
        exact (List.dropLast_prefix old).trans (List.prefix_append _ _)
      have hlen : old.length ≤ ((c :: cs) ++ old.dropLast).length := by
        simp only [List.length_append, List.length_cons, List.length_dropLast]
        omega
      exact (List.prefix_of_prefix_length_le hp h1 hlen).isInfix
    simp only [List.cons_append] at hnp ⊢
    simp only [Index, hnp]
    simp only [List.cons_append, List.append_assoc] at ih ⊢
    simp [ih hcs]

theorem Replace_first (s a old new b : Str) (hs : s = a ++ old ++ b) (hne : old ≠ new)
    (h : ¬ old <:+: a ++ old.dropLast) : Replace s old new 1 = a ++ new ++ b := by
  subst hs
  simp only [Replace, hne, if_false, Index_first a old b h]
  simp

theorem Replace_of_absent (s old new : Str) (n : Nat) (h : ¬ old <:+: s) :
    Replace s old new n = s := by
  have hn : Index s old = none := by
    cases hi : Index s old with
    | none => rfl
    | some j => exact absurd ((Index_isSome_iff s old).mp (by simp [hi])) h
  cases n with
  | zero => rfl
  | succ n => simp [Replace, hn]

theorem prefix_of_prefix_append_sep (old x y : Str) (sep : Char) (hsep : sep ∉ old)
    (h : old <+: x ++ sep :: y) : old <+: x := by
  by_cases hlen : old.length ≤ x.length
  · exact List.prefix_of_prefix_length_le h (List.prefix_append _ _) hlen
  · exfalso
    have h1 : x ++ [sep] <+: x ++ sep :: y := by
      apply (List.prefix_append_right_inj _).mpr
      simp
    have h2 : x ++ [sep] <+: old :=
      List.prefix_of_prefix_length_le h1 h (by simp; omega)
    exact hsep (h2.subset (by simp))

theorem infix_append_sep (old x y : Str) (sep : Char) (hsep : sep ∉ old)
    (h : old <:+: x ++ sep :: y) : old <:+: x ∨ old <:+: y := by
  induction x with
  | nil =>
    simp only [List.nil_append] at h
    rcases List.infix_cons_iff.mp h with hp | hi
    · rcases List.prefix_cons_iff.mp hp with rfl | ⟨t, rfl, _⟩
      · exact Or.inl List.nil_infix
      · exact absurd (List.mem_cons_self _ _) hsep
    · exact Or.inr hi
  | cons c cs ih =>
    simp only [List.cons_append] at h
    rcases List.infix_cons_iff.mp h with hp | hi
    · exact Or.inl (prefix_of_prefix_append_sep old (c :: cs) y sep hsep hp).isInfix
    · rcases ih hi with h1 | h2
      · exact Or.inl (List.infix_cons_iff.mpr (Or.inr h1))
      · exact Or.inr h2

end strings

theorem not_suffix_concat (old y : Str) (c : Char) (h : old.getLast? ≠ some c)
    (hne : old ≠ []) : ¬ old <:+ y ++ [c] := by
  rintro ⟨t, ht⟩
  have h2 := congrArg List.getLast? ht
  rw [List.getLast?_append_of_ne_nil _ hne] at h2
  simp at h2
  exact h h2

theorem dotgit_absent (org repo : Str) (ho : ¬ ".git".toList <:+: org)
    (hr : ¬ ".git".toList <:+: repo) :
    ¬ ".git".toList <:+: "https://github.com/".toList ++ org ++ "/".toList ++ repo
      ++ ".git".toList.dropLast := by
  intro h
  have e : "https://github.com/".toList ++ org ++ "/".toList ++ repo ++ ".git".toList.dropLast
      = "https://github.com".toList ++ '/' :: (org ++ '/' :: (repo ++ ".gi".toList)) := by
    simp
  rw [e] at h
  rcases strings.infix_append_sep _ _ _ '/' (by decide) h with h1 | h1
  · revert h1
    decide
  · rcases strings.infix_append_sep _ _ _ '/' (by decide) h1 with h2 | h2
    · exact ho h2
    · have e2 : repo ++ ".gi".toList = ((repo ++ ['.']) ++ ['g']) ++ ['i'] := by simp
      rw [e2] at h2
      rcases List.infix_concat_iff.mp h2 with h3 | h3
      · exact not_suffix_concat _ _ _ (by decide) (by decide) h3
      · rcases List.infix_concat_iff.mp h3 with h4 | h4
        · exact not_suffix_concat _ _ _ (by decide) (by decide) h4
        · rcases List.infix_concat_iff.mp h4 with h5 | h5
          · exact not_suffix_concat _ _ _ (by decide) (by decide) h5
          · exact hr h5


namespace strings

theorem mem_Replace (s old new : Str) (n : Nat) (c : Char) (h : c ∈ Replace s old new n) :
    c ∈ s ∨ c ∈ new := by
  induction n generalizing s with
  | zero => exact Or.inl h
  | succ n ih =>
    simp only [Replace] at h
    split at h
    · exact Or.inl h
    · split at h
      · exact Or.inl h
      · rename_i j hj
        simp only [List.mem_append] at h
        rcases h with (h | h) | h
        · exact Or.inl (List.mem_of_mem_take h)
        · exact Or.inr h
        · rcases ih _ h with h | h
          · exact Or.inl (List.mem_of_mem_drop h)
          · exact Or.inr h

theorem mem_Split (s : Str) (sep : Char) (piece : Str) (c : Char)
    (hp : piece ∈ Split s sep) (hc : c ∈ piece) : c ∈ s := by
  induction s generalizing piece with
  | nil =>
    simp [Split] at hp
    subst hp
    exact hc
  | cons x xs ih =>
    simp only [Split] at hp
    split at hp
    · simp only [List.mem_cons] at hp
      rcases hp with rfl | hp
      · simp at hc
      · exact List.mem_cons_of_mem _ (ih piece hp hc)
    · cases hs : Split xs sep with
      | nil => exact absurd hs (Split_ne_nil xs sep)
      | cons p rest =>
        rw [hs] at hp ih
        simp only [List.mem_cons] at hp
        rcases hp with rfl | hp
        · simp only [List.mem_cons] at hc
          rcases hc with rfl | hc
          · simp
          · exact List.mem_cons_of_mem _ (ih p (by simp) hc)
        · exact List.mem_cons_of_mem _ (ih piece (by simp [hp]) hc)

theorem mem_Join (elems : List Str) (sep : Str) (c : Char) (h : c ∈ Join elems sep) :
    c ∈ sep ∨ ∃ e ∈ elems, c ∈ e := by
  induction elems with
  | nil => simp [Join, List.intercalate] at h
  | cons e rest ih =>
    cases rest with
    | nil =>
      simp [Join, List.intercalate] at h
      exact Or.inr ⟨e, by simp, h⟩
    | cons e2 rest2 =>
      have hj : Join (e :: e2 :: rest2) sep = e ++ sep ++ Join (e2 :: rest2) sep := by
        simp [Join, List.intercalate]
      rw [hj] at h
      simp only [List.mem_append] at h
      rcases h with (h | h) | h
      · exact Or.inr ⟨e, by simp, h⟩
      · exact Or.inl h
      · rcases ih h with h | ⟨x, hx, hc⟩
        · exact Or.inl h
        · exact Or.inr ⟨x, List.mem_cons_of_mem _ hx, hc⟩

end strings

namespace filepath

theorem mem_cleanStep (rooted : Bool) (out : List Str) (elem x : Str)
    (h : x ∈ cleanStep rooted out elem) : x ∈ out ∨ x = elem := by
  simp only [cleanStep] at h
  split at h
  · exact Or.inl h
  · split at h
    · split at h
      · split at h
        · simp at h
        · simp at h; exact Or.inr h
      · split at h
        · simp only [List.mem_cons] at h
          rcases h with h | h
          · exact Or.inr h
          · exact Or.inl (by simpa using h)
        · exact Or.inl (List.mem_cons_of_mem _ h)
    · simp only [List.mem_cons] at h
      rcases h with h | h
      · exact Or.inr h
      · exact Or.inl h

theorem mem_foldl_cleanStep (rooted : Bool) (elems : List Str) (out : List Str) (x : Str)
    (h : x ∈ elems.foldl (cleanStep rooted) out) : x ∈ out ∨ x ∈ elems := by
  induction elems generalizing out with
  | nil => exact Or.inl h
  | cons e rest ih =>
    simp only [List.foldl_cons] at h
    rcases ih _ h with h | h
    · rcases mem_cleanStep _ _ _ _ h with h | h
      · exact Or.inl h
      · exact Or.inr (by simp [h])
    · exact Or.inr (List.mem_cons_of_mem _ h)

theorem mem_Clean (path : Str) (c : Char) (h : c ∈ Clean path) :
    c ∈ path ∨ c = '/' ∨ c = '.' := by
  simp only [Clean] at h
  split at h
  · simp at h; exact Or.inr (Or.inr h)
  · have key : ∀ c, c ∈ strings.Join
        ((strings.Split path Separator).foldl
          (cleanStep (path.head? = some Separator)) []).reverse [Separator] →
        c ∈ path ∨ c = '/' ∨ c = '.' := by
      intro c hc
      rcases strings.mem_Join _ _ _ hc with h1 | ⟨e, he, hce⟩
      · simp [Separator] at h1
        exact Or.inr (Or.inl h1)
      · rw [List.mem_reverse] at he
        rcases mem_foldl_cleanStep _ _ _ _ he with h2 | h2
        · simp at h2
        · exact Or.inl (strings.mem_Split _ _ _ _ h2 hce)
    split at h
    · simp only [List.mem_cons] at h
      rcases h with h | h
      · exact Or.inr (Or.inl (by simpa [Separator] using h))
      · exact key c h
    · split at h
      · simp at h; exact Or.inr (Or.inr h)
      · exact key c h

theorem mem_joined_path (elems : List Str) (c : Char) (h : c ∈ Join elems) :
    (∃ e ∈ elems, c ∈ e) ∨ c = '/' ∨ c = '.' := by
  induction elems with
  | nil => simp [Join] at h
  | cons e rest ih =>
    simp only [Join] at h
    split at h
    · rcases ih h with ⟨x, hx, hc⟩ | h
      · exact Or.inl ⟨x, List.mem_cons_of_mem _ hx, hc⟩
      · exact Or.inr h
    · rcases mem_Clean _ _ h with h | h
      · rcases strings.mem_Join _ _ _ h with h | h
        · simp [Separator] at h
          exact Or.inr (Or.inl h)
        · exact Or.inl h
      · exact Or.inr h

end filepath

/-! ## `formatGitURL` -/

/-- C3 (amended): for every `org` and `repo` that do not contain `.git` and
every `branch` and `path`, `formatGitURL` on the remote
`git@github.com:{org}/{repo}.git` with line `0` succeeds and returns
`https://github.com/{org}/{repo}/` followed by `filepath.Join("blob", branch,
path)`, the cleaned join of the three elements; and the call on
`git@github.com:acme/widgets.git`, `main`, `src/app.go`, `42` returns
`https://github.com/acme/widgets/blob/main/src/app.go#L42`. -/
theorem formatGitURL_template (org repo branch path : Str)
    (ho : strings.Contains org ".git".toList = false)
    (hr : strings.Contains repo ".git".toList = false) :
    formatGitURL ("git@github.com:".toList ++ org ++ "/".toList ++ repo ++ ".git".toList)
        branch path 0
      = ("https://github.com/".toList ++ org ++ "/".toList ++ repo ++ "/".toList
          ++ filepath.Join ["blob".toList, branch, path], none) ∧
    formatGitURL "git@github.com:acme/widgets.git".toList "main".toList "src/app.go".toList 42
      = ("https://github.com/acme/widgets/blob/main/src/app.go#L42".toList, none) := by
  refine ⟨?_, by decide⟩
  have ho2 : ¬ ".git".toList <:+: org := by
    rw [← strings.Contains_iff, ho]; simp
  have hr2 : ¬ ".git".toList <:+: repo := by
    rw [← strings.Contains_iff, hr]; simp
  have hc : strings.Contains
      ("git@github.com:".toList ++ org ++ "/".toList ++ repo ++ ".git".toList)
      "git@github.com:".toList = true := by
    rw [strings.Contains_iff]
    simp only [List.append_assoc]
    exact (List.prefix_append _ _).isInfix
  have r1 := strings.Replace_first
    ("git@github.com:".toList ++ org ++ "/".toList ++ repo ++ ".git".toList)
    "git@github.com".toList ":".toList "/".toList (org ++ "/".toList ++ repo ++ ".git".toList)
    (by simp) (by decide) (by decide)
  have r2 := strings.Replace_first
    ("git@github.com".toList ++ "/".toList ++ (org ++ "/".toList ++ repo ++ ".git".toList))
    [] "git@".toList "https://".toList
    ("github.com/".toList ++ (org ++ "/".toList ++ repo ++ ".git".toList))
    (by simp) (by decide) (by decide)
  have r3 := strings.Replace_first
    ([] ++ "https://".toList ++
      ("github.com/".toList ++ (org ++ "/".toList ++ repo ++ ".git".toList)))
    ("https://github.com/".toList ++ org ++ "/".toList ++ repo) ".git".toList
    ("/".toList ++ filepath.Join ["blob".toList, branch, path]) []
    (by simp) (by simp) (dotgit_absent org repo ho2 hr2)
  simp only [formatGitURL, hc, r1, r2, r3]
  simp

/-- C3 (witness): the amended claim at `acme`, `widgets`, `main`, `src/app.go`. -/
theorem formatGitURL_template_witness :
    (strings.Contains "acme".toList ".git".toList = false ∧
      strings.Contains "widgets".toList ".git".toList = false) ∧
    (formatGitURL ("git@github.com:".toList ++ "acme".toList ++ "/".toList
          ++ "widgets".toList ++ ".git".toList) "main".toList "src/app.go".toList 0
      = ("https://github.com/".toList ++ "acme".toList ++ "/".toList ++ "widgets".toList
          ++ "/".toList
          ++ filepath.Join ["blob".toList, "main".toList, "src/app.go".toList], none) ∧
    formatGitURL "git@github.com:acme/widgets.git".toList "main".toList "src/app.go".toList 42
      = ("https://github.com/acme/widgets/blob/main/src/app.go#L42".toList, none)) :=
  ⟨by decide, formatGitURL_template "acme".toList "widgets".toList "main".toList
    "src/app.go".toList (by decide) (by decide)⟩

/-- C3 (counterexample): a path that is not clean is cleaned by
`filepath.Join`, so the URL is not the plain concatenation with `path`; and for
a repository whose name contains `.git` it is the first `.git`, not the
trailing one, that is replaced. -/
theorem formatGitURL_template_fails :
    formatGitURL ("git@github.com:".toList ++ "acme".toList ++ "/".toList
        ++ "widgets".toList ++ ".git".toList) "main".toList "docs//a.go".toList 0
      = ("https://github.com/acme/widgets/blob/main/docs/a.go".toList, none) ∧
    "https://github.com/acme/widgets/blob/main/docs/a.go".toList
      ≠ "https://github.com/".toList ++ "acme".toList ++ "/".toList ++ "widgets".toList
          ++ "/blob/".toList ++ "main".toList ++ "/".toList ++ "docs//a.go".toList ∧
    formatGitURL ("git@github.com:".toList ++ "user".toList ++ "/".toList
        ++ "user.github.io".toList ++ ".git".toList) "main".toList "a.go".toList 0
      = ("https://github.com/user/user/blob/main/a.gohub.io.git".toList, none) := by
  decide

/-- C4 (amended): `formatGitURL` fails exactly when the remote does not contain
`git@github.com:` as a substring; whatever surrounds that substring, the
remote is accepted. -/
theorem formatGitURL_error_iff (remote branch path : Str) (line : Int) :
    (formatGitURL remote branch path line).2 ≠ none ↔
      ¬ "git@github.com:".toList <:+: remote := by
  rw [← strings.Contains_iff]
  simp only [formatGitURL]
  split <;> simp_all

/-- C4 (counterexample): a remote with text before `git@` and a remote that
does not end in `.git` are both accepted. -/
theorem formatGitURL_accepts_other_forms :
    formatGitURL "ssh://git@github.com:acme/widgets.git".toList "main".toList "a.go".toList 0
      = ("ssh///https://github.com:acme/widgets/blob/main/a.go".toList, none) ∧
    formatGitURL "git@github.com:acme/widgets".toList "main".toList "a.go".toList 0
      = ("https://github.com/acme/widgets".toList, none) := by
  decide

/-- C7 (amended): when none of `remote`, `branch` and `path` contains the
character `#`, the URL that `formatGitURL` returns for line `0` does not
contain `#L` (with line `0` nothing is appended to the rewritten remote). -/
theorem formatGitURL_no_hash (remote branch path url : Str)
    (hr : '#' ∉ remote) (hb : '#' ∉ branch) (hp : '#' ∉ path)
    (h : formatGitURL remote branch path 0 = (url, none)) :
    strings.Contains url "#L".toList = false := by
  have hu : '#' ∉ url := by
    simp only [formatGitURL] at h
    split at h
    · simp at h
    · simp only [ne_eq, not_true_eq_false, if_false, Prod.mk.injEq, and_true] at h
      subst h
      intro hm
      rcases strings.mem_Replace _ _ _ _ _ hm with h1 | h1
      · rcases strings.mem_Replace _ _ _ _ _ h1 with h2 | h2
        · rcases strings.mem_Replace _ _ _ _ _ h2 with h3 | h3
          · exact hr h3
          · revert h3; decide
        · revert h2; decide
      · simp only [List.mem_append] at h1
        rcases h1 with h1 | h1
        · revert h1; decide
        · rcases filepath.mem_joined_path _ _ h1 with ⟨e, he, hc⟩ | h4 | h4
          · simp only [List.mem_cons, List.mem_singleton, List.not_mem_nil, or_false] at he
            rcases he with rfl | rfl | rfl
            · revert hc; decide
            · exact hb hc
            · exact hp hc
          · revert h4; decide
          · revert h4; decide
  cases hc : strings.Contains url "#L".toList with
  | false => rfl
  | true =>
    exfalso
    apply hu
    exact ((strings.Contains_iff _ _).mp hc).subset (by decide)

/-- C7 (witness): the amended claim at `git@github.com:o/r.git`, `main`, `a.go`. -/
theorem formatGitURL_no_hash_witness :
    ('#' ∉ "git@github.com:o/r.git".toList ∧ '#' ∉ "main".toList ∧ '#' ∉ "a.go".toList ∧
      formatGitURL "git@github.com:o/r.git".toList "main".toList "a.go".toList 0
        = ("https://github.com/o/r/blob/main/a.go".toList, none)) ∧
    strings.Contains "https://github.com/o/r/blob/main/a.go".toList "#L".toList = false :=
  ⟨by decide, formatGitURL_no_hash "git@github.com:o/r.git".toList "main".toList "a.go".toList
    "https://github.com/o/r/blob/main/a.go".toList (by decide) (by decide) (by decide)
    (by decide)⟩

/-- C7 (counterexample): with line `0` and a path that contains `#L`, the URL
returned contains `#L`. -/
theorem formatGitURL_hash_in_path :
    formatGitURL "git@github.com:o/r.git".toList "main".toList "a#L1.go".toList 0
      = ("https://github.com/o/r/blob/main/a#L1.go".toList, none) ∧
    strings.Contains "https://github.com/o/r/blob/main/a#L1.go".toList "#L".toList = true := by
  decide

/-! ## `findFile`: the bound on the recursion -/

theorem findFileEntries_mono (s1 s2 : Str → Option (Run (Str × Bool × Option Err)))
    (root : Str) (es : List DirEntry) (r : Run (Str × Bool × Option Err))
    (h : ∀ d x, s1 d = some x → s2 d = some x)
    (h1 : findFileEntries s1 root es = some r) : findFileEntries s2 root es = some r := by
  induction es with
  | nil => exact h1
  | cons e rest ih =>
    simp only [findFileEntries] at h1 ⊢
    split
    · rename_i hd
      simp only [hd, if_true] at h1
      exact ih h1
    · rename_i hd
      simp only [hd, if_false] at h1
      cases hs : s1 (filepath.Join [root, e.name]) with
      | none => simp [hs] at h1
      | some x =>
        rw [hs] at h1
        rw [h _ _ hs]
        cases x with
        | panic => exact h1
        | ret res =>
          obtain ⟨found, ok, err⟩ := res
          cases err with
          | some er => exact h1
          | none =>
            cases ok with
            | true => exact h1
            | false =>
              simp only [Bool.false_eq_true, if_false] at h1 ⊢
              exact ih h1

theorem findFile_succ (fs : FS) (fuel : Nat) (root : Str) (segs : List Str)
    (r : Run (Str × Bool × Option Err)) (h : findFile fs fuel root segs = some r) :
    findFile fs (fuel + 1) root segs = some r := by
  induction fuel generalizing root segs r with
  | zero => simp [findFile] at h
  | succ n ih =>
    cases segs with
    | nil => simpa [findFile] using h
    | cons pfx remaining =>
      rw [findFile] at h ⊢
      cases hg : filepath.Glob fs (filepath.Join [root, pfx]) with
      | error e => simpa [hg] using h
      | ok found =>
        simp only [hg] at h ⊢
        split
        · rename_i h1; simpa [h1] using h
        · rename_i h1
          simp only [h1, if_false] at h
          split
          · rename_i h2; simpa [h2] using h
          · rename_i h2
            simp only [h2, if_false] at h
            split
            · rename_i h3
              simp only [h3, if_true] at h
              exact ih _ _ _ h
            · rename_i h3
              simp only [h3, if_false] at h
              cases hr : fs.readDir root with
              | permission => simpa [hr] using h
              | failed e => simpa [hr] using h
              | entries es =>
                simp only [hr] at h ⊢
                exact findFileEntries_mono _ _ _ _ _ (fun d x hx => ih _ _ _ hx) h

theorem findFile_mono (fs : FS) (n m : Nat) (root : Str) (segs : List Str)
    (r : Run (Str × Bool × Option Err)) (hnm : n ≤ m)
    (h : findFile fs n root segs = some r) : findFile fs m root segs = some r := by
  induction hnm with
  | refl => exact h
  | step _ ih => exact findFile_succ _ _ _ _ _ ih

/-! ## `findFile`: one level of the search -/

theorem findFile_of_glob_many (fs : FS) (fuel : Nat) (root pfx : Str) (remaining : List Str)
    (found : List Str) (hg : filepath.Glob fs (filepath.Join [root, pfx]) = .ok found)
    (hlen : found.length > 1) :
    findFile fs (fuel + 1) root (pfx :: remaining)
      = some (.ret ([], false, some (.multipleMatches found))) := by
  simp [findFile, hg, hlen]

theorem findFile_of_glob_one (fs : FS) (fuel : Nat) (root pfx m : Str) (remaining : List Str)
    (hg : filepath.Glob fs (filepath.Join [root, pfx]) = .ok [m]) (hrem : remaining ≠ []) :
    findFile fs (fuel + 1) root (pfx :: remaining) = findFile fs fuel m remaining := by
  simp [findFile, hg, hrem]

theorem findFile_of_glob_last (fs : FS) (fuel : Nat) (root pfx m : Str)
    (hg : filepath.Glob fs (filepath.Join [root, pfx]) = .ok [m]) :
    findFile fs (fuel + 1) root [pfx] = some (.ret (m, true, none)) := by
  simp [findFile, hg]

theorem findFile_of_denied (fs : FS) (fuel : Nat) (root pfx : Str) (remaining : List Str)
    (hg : filepath.Glob fs (filepath.Join [root, pfx]) = .ok [])
    (hr : fs.readDir root = .permission) :
    findFile fs (fuel + 1) root (pfx :: remaining) = some (.ret ([], false, none)) := by
  simp [findFile, hg, hr]

theorem findFile_of_entries (fs : FS) (fuel : Nat) (root pfx : Str) (remaining : List Str)
    (es : List DirEntry)
    (hg : filepath.Glob fs (filepath.Join [root, pfx]) = .ok [])
    (hr : fs.readDir root = .entries es) :
    findFile fs (fuel + 1) root (pfx :: remaining) =
      findFileEntries (fun dir => findFile fs fuel dir (pfx :: remaining)) root es := by
  simp [findFile, hg, hr]

theorem findFileEntries_skip (search : Str → Option (Run (Str × Bool × Option Err)))
    (root : Str) (before rest : List DirEntry)
    (h : ∀ x ∈ before, x.isDir = true →
      ∃ out, search (filepath.Join [root, x.name]) = some (.ret (out, false, none))) :
    findFileEntries search root (before ++ rest) = findFileEntries search root rest := by
  induction before with
  | nil => rfl
  | cons e es ih =>
    have ih2 := ih (fun x hx => h x (List.mem_cons_of_mem _ hx))
    simp only [List.cons_append, findFileEntries]
    cases hd : e.isDir with
    | false => simpa using ih2
    | true =>
      obtain ⟨out, ho⟩ := h e (List.mem_cons_self _ _) hd
      simp [ho, ih2]

theorem findFileEntries_all_notFound (search : Str → Option (Run (Str × Bool × Option Err)))
    (root : Str) (es : List DirEntry)
    (h : ∀ x ∈ es, x.isDir = true →
      ∃ out, search (filepath.Join [root, x.name]) = some (.ret (out, false, none))) :
    findFileEntries search root es = some (.ret ([], false, none)) := by
  have := findFileEntries_skip search root es [] h
  simpa [findFileEntries] using this

theorem findFileEntries_found (search : Str → Option (Run (Str × Bool × Option Err)))
    (root : Str) (before after : List DirEntry) (entry : DirEntry) (p : Str)
    (hd : entry.isDir = true)
    (h : ∀ x ∈ before, x.isDir = true →
      ∃ out, search (filepath.Join [root, x.name]) = some (.ret (out, false, none)))
    (hf : search (filepath.Join [root, entry.name]) = some (.ret (p, true, none))) :
    findFileEntries search root (before ++ entry :: after) = some (.ret (p, true, none)) := by
  rw [findFileEntries_skip search root before _ h]
  simp [findFileEntries, hd, hf]

theorem findFileEntries_error (search : Str → Option (Run (Str × Bool × Option Err)))
    (root : Str) (before after : List DirEntry) (entry : DirEntry) (out : Str) (ok : Bool)
    (e : Err) (hd : entry.isDir = true)
    (h : ∀ x ∈ before, x.isDir = true →
      ∃ out, search (filepath.Join [root, x.name]) = some (.ret (out, false, none)))
    (hf : search (filepath.Join [root, entry.name]) = some (.ret (out, ok, some e))) :
    findFileEntries search root (before ++ entry :: after)
      = some (.ret ([], false, some e)) := by
  rw [findFileEntries_skip search root before _ h]
  simp [findFileEntries, hd, hf]

/-- C8 (amended): when the first segment matches nothing directly under
`root` and the listing of `root` succeeds, `findFile` searches the
subdirectories in listing order, each with the unmodified segment list: it
returns the success of the first subdirectory whose search succeeds provided
the search of every subdirectory before it reported "not found"; an error of
the first subdirectory whose search does not report "not found" is returned as
the error of `findFile`; and when every subdirectory reports "not found",
`findFile` reports "not found" without an error. -/
theorem findFile_subdirectories (fs : FS) (fuel : Nat) (root pfx : Str) (remaining : List Str)
    (es : List DirEntry)
    (hg : filepath.Glob fs (filepath.Join [root, pfx]) = .ok [])
    (hr : fs.readDir root = .entries es) :
    (∀ before entry after p, es = before ++ entry :: after → entry.isDir = true →
      (∀ x ∈ before, x.isDir = true → ∃ out,
        findFile fs fuel (filepath.Join [root, x.name]) (pfx :: remaining)
          = some (.ret (out, false, none))) →
      findFile fs fuel (filepath.Join [root, entry.name]) (pfx :: remaining)
        = some (.ret (p, true, none)) →
      findFile fs (fuel + 1) root (pfx :: remaining) = some (.ret (p, true, none))) ∧
    (∀ before entry after out ok e, es = before ++ entry :: after → entry.isDir = true →
      (∀ x ∈ before, x.isDir = true → ∃ out,
        findFile fs fuel (filepath.Join [root, x.name]) (pfx :: remaining)
          = some (.ret (out, false, none))) →
      findFile fs fuel (filepath.Join [root, entry.name]) (pfx :: remaining)
        = some (.ret (out, ok, some e)) →
      findFile fs (fuel + 1) root (pfx :: remaining) = some (.ret ([], false, some e))) ∧
    ((∀ x ∈ es, x.isDir = true → ∃ out,
        findFile fs fuel (filepath.Join [root, x.name]) (pfx :: remaining)
          = some (.ret (out, false, none))) →
      findFile fs (fuel + 1) root (pfx :: remaining) = some (.ret ([], false, none))) := by
  rw [findFile_of_entries fs fuel root pfx remaining es hg hr]
  refine ⟨?_, ?_, ?_⟩
  · intro before entry after p hes hd hb hf
    subst hes
    exact findFileEntries_found _ _ _ _ _ _ hd hb hf
  · intro before entry after out ok e hes hd hb hf
    subst hes
    exact findFileEntries_error _ _ _ _ _ _ _ _ hd hb hf
  · intro h
    exact findFileEntries_all_notFound _ _ _ h

/-- C10 (amended): a directory `dir` whose listing raises a permission error
and under which the first segment glob-matches nothing is reported as "not
found", without an error; so when the name `f` glob-matches nothing directly
under `root`, the listing of `root` succeeds, every subdirectory listed before
the subdirectory `s` is unreadable and has no glob-match of `f` under it, and
`f` glob-matches exactly the entry `p` under `s`, `findFile` on `root` succeeds
with `p`, wherever `s` stands in the listing: before or after the unreadable
subdirectories. Without glob metacharacters `p` is the existing path
`root/s/f`. -/
theorem findFile_permission (fs : FS) (fuel : Nat) (dir pfx : Str) (remaining : List Str)
    (root f p : Str) (before after : List DirEntry) (s : DirEntry)
    (hgd : filepath.Glob fs (filepath.Join [dir, pfx]) = .ok [])
    (hrd : fs.readDir dir = .permission)
    (hg : filepath.Glob fs (filepath.Join [root, f]) = .ok [])
    (hr : fs.readDir root = .entries (before ++ s :: after))
    (hs : s.isDir = true)
    (hbefore : ∀ u ∈ before, u.isDir = true →
      filepath.Glob fs (filepath.Join [filepath.Join [root, u.name], f]) = .ok [] ∧
      fs.readDir (filepath.Join [root, u.name]) = .permission)
    (hgs : filepath.Glob fs (filepath.Join [filepath.Join [root, s.name], f]) = .ok [p]) :
    findFile fs (fuel + 1) dir (pfx :: remaining) = some (.ret ([], false, none)) ∧
    findFile fs (fuel + 2) root [f] = some (.ret (p, true, none)) ∧
    (filepath.hasMeta (filepath.Join [filepath.Join [root, s.name], f]) = false →
      p = filepath.Join [filepath.Join [root, s.name], f] ∧ fs.lstat p = true) := by
  refine ⟨findFile_of_denied fs fuel dir pfx remaining hgd hrd, ?_, ?_⟩
  · rw [findFile_of_entries fs (fuel + 1) root f [] _ hg hr]
    refine findFileEntries_found _ root before after s p hs ?_
      (findFile_of_glob_last fs fuel (filepath.Join [root, s.name]) f p hgs)
    intro u hu hud
    obtain ⟨h1, h2⟩ := hbefore u hu hud
    exact ⟨[], findFile_of_denied fs fuel (filepath.Join [root, u.name]) f [] h1 h2⟩
  · intro hm
    simp only [filepath.Glob, hm, Bool.false_eq_true, if_false] at hgs
    cases hl : fs.lstat (filepath.Join [filepath.Join [root, s.name], f]) with
    | false => simp [hl] at hgs
    | true =>
      simp only [hl, if_true] at hgs
      injection hgs with hgs
      injection hgs with hgs
      rw [← hgs]
      exact ⟨rfl, hl⟩

/-- C8 (witness): in the tree with `/r/a` empty and `/r/b/foo.go`, the search
of `/r` for `foo.go` returns the success of `b` after `a` reported "not
found". -/
theorem findFile_subdirectories_witness :
    (filepath.Glob fsTwoDirs (filepath.Join ["/r".toList, "foo.go".toList]) = .ok [] ∧
      fsTwoDirs.readDir "/r".toList
        = .entries [⟨"a".toList, true⟩, ⟨"b".toList, true⟩]) ∧
    findFile fsTwoDirs 3 "/r".toList ["foo.go".toList]
      = some (.ret ("/r/b/foo.go".toList, true, none)) :=
  ⟨by decide,
    (findFile_subdirectories fsTwoDirs 2 "/r".toList "foo.go".toList []
      [⟨"a".toList, true⟩, ⟨"b".toList, true⟩] (by decide) (by decide)).1
      [⟨"a".toList, true⟩] ⟨"b".toList, true⟩ [] "/r/b/foo.go".toList rfl rfl
      (by
        intro x hx _
        rw [List.mem_singleton] at hx
        subst hx
        exact ⟨[], by decide⟩)
      (by decide)⟩

/-- C8 (counterexample): listing `/r/a` fails with an input/output error, so
the search of `/r` for `foo.go` returns that error, although the search of the
next subdirectory `/r/b` succeeds. -/
theorem findFile_subdirectory_error :
    filepath.Glob fsIoError (filepath.Join ["/r".toList, "foo.go".toList]) = .ok [] ∧
    fsIoError.readDir "/r".toList = .entries [⟨"a".toList, true⟩, ⟨"b".toList, true⟩] ∧
    findFile fsIoError 4 (filepath.Join ["/r".toList, "a".toList]) ["foo.go".toList]
      = some (.ret ([], false, some (.readDirFailed "/r/a".toList (.os 5)))) ∧
    findFile fsIoError 4 (filepath.Join ["/r".toList, "b".toList]) ["foo.go".toList]
      = some (.ret ("/r/b/foo.go".toList, true, none)) ∧
    findFile fsIoError 5 "/r".toList ["foo.go".toList]
      = some (.ret ([], false, some (.readDirFailed "/r/a".toList (.os 5)))) := by
  decide

/-- C10 (witness): in the tree with `/r/p` unreadable and `/r/s/foo.go`, the
search of `/r/p` reports "not found" and the search of `/r` succeeds with
`/r/s/foo.go`, although `p` is listed before `s`. -/
theorem findFile_permission_witness :
    (filepath.Glob fsDenied (filepath.Join ["/r/p".toList, "foo.go".toList]) = .ok [] ∧
      fsDenied.readDir "/r/p".toList = .permission ∧
      filepath.Glob fsDenied (filepath.Join ["/r".toList, "foo.go".toList]) = .ok [] ∧
      fsDenied.readDir "/r".toList
        = .entries ([⟨"p".toList, true⟩] ++ ⟨"s".toList, true⟩ :: []) ∧
      (∀ u ∈ [(⟨"p".toList, true⟩ : DirEntry)], u.isDir = true →
        filepath.Glob fsDenied
            (filepath.Join [filepath.Join ["/r".toList, u.name], "foo.go".toList]) = .ok [] ∧
        fsDenied.readDir (filepath.Join ["/r".toList, u.name]) = .permission) ∧
      filepath.Glob fsDenied
          (filepath.Join [filepath.Join ["/r".toList, "s".toList], "foo.go".toList])
        = .ok ["/r/s/foo.go".toList]) ∧
    (findFile fsDenied 1 "/r/p".toList ["foo.go".toList] = some (.ret ([], false, none)) ∧
      findFile fsDenied 2 "/r".toList ["foo.go".toList]
        = some (.ret ("/r/s/foo.go".toList, true, none)) ∧
      (filepath.hasMeta
          (filepath.Join [filepath.Join ["/r".toList, "s".toList], "foo.go".toList]) = false →
        "/r/s/foo.go".toList
            = filepath.Join [filepath.Join ["/r".toList, "s".toList], "foo.go".toList] ∧
          fsDenied.lstat "/r/s/foo.go".toList = true)) :=
  ⟨by decide,
    findFile_permission fsDenied 0 "/r/p".toList "foo.go".toList [] "/r".toList
      "foo.go".toList "/r/s/foo.go".toList
      [⟨"p".toList, true⟩] [] ⟨"s".toList, true⟩
      (by decide) (by decide) (by decide) (by decide) rfl (by decide) (by decide)⟩

/-- C10 (counterexample): `/r/u` can be searched but not listed; its listing
raises a permission error, and yet `findFile` on it succeeds, because
`foo.go` is matched before the directory is listed. -/
theorem findFile_unreadable_found :
    fsSearchOnly.readDir "/r/u".toList = .permission ∧
    findFile fsSearchOnly 1 "/r/u".toList ["foo.go".toList]
      = some (.ret ("/r/u/foo.go".toList, true, none)) := by
  decide

/-! ## Joining a directory and a name -/

namespace filepath

theorem cleanStep_name (rooted : Bool) (out : List Str) (f : Str) (hf : IsName f) :
    cleanStep rooted out f = f :: out := by
  obtain ⟨h1, _, h3, h4⟩ := hf
  simp [cleanStep, h1, h3, h4]

theorem Clean_name (f : Str) (hf : IsName f) : Clean f = f := by
  have hsplit : strings.Split f Separator = [f] := strings.Split_of_not_mem f _ hf.2.1
  have hhead : ¬ f.head? = some Separator := by
    intro h
    cases f with
    | nil => simp at h
    | cons c cs =>
      simp at h
      exact hf.2.1 (by simp [h])
  simp [Clean, hf.1, hsplit, cleanStep_name _ _ f hf, hhead, strings.Join, List.intercalate]

theorem Join_single (f : Str) (hf : IsName f) : Join [f] = f := by
  simp [Join, hf.1, strings.Join, List.intercalate, Clean_name f hf]

theorem strings_Join_concat (xs : List Str) (f sep : Str) (hxs : xs ≠ []) :
    strings.Join (xs ++ [f]) sep = strings.Join xs sep ++ sep ++ f := by
  induction xs with
  | nil => exact absurd rfl hxs
  | cons x rest ih =>
    cases rest with
    | nil => simp [strings.Join, List.intercalate]
    | cons y ys =>
      have h1 : strings.Join (x :: (y :: ys ++ [f])) sep
          = x ++ sep ++ strings.Join (y :: ys ++ [f]) sep := by
        simp [strings.Join, List.intercalate]
      have h2 : strings.Join (x :: y :: ys) sep = x ++ sep ++ strings.Join (y :: ys) sep := by
        simp [strings.Join, List.intercalate]
      simp only [List.cons_append] at h1 ih ⊢
      rw [h1, ih (by simp), h2]
      simp

theorem Split_body_last (kept : List Str) (f : Str) (hf : IsName f) :
    (strings.Split (strings.Join (kept ++ [f]) [Separator]) Separator).getLast? = some f ∧
      strings.Join (kept ++ [f]) [Separator] ≠ [] := by
  have hsplit : strings.Split f Separator = [f] := strings.Split_of_not_mem f _ hf.2.1
  cases kept with
  | nil =>
    have : strings.Join ([] ++ [f]) [Separator] = f := by
      simp [strings.Join, List.intercalate]
    rw [this, hsplit]
    exact ⟨rfl, hf.1⟩
  | cons k ks =>
    rw [strings_Join_concat (k :: ks) f _ (by simp)]
    constructor
    · have e : strings.Join (k :: ks) [Separator] ++ [Separator] ++ f
          = strings.Join (k :: ks) [Separator] ++ Separator :: f := by simp
      rw [e, strings.Split_append_sep, hsplit]
      simp
    · simp

theorem getLast?_cons_of (a : Str) (l : List Str) (x : Str) (h : l.getLast? = some x) :
    (a :: l).getLast? = some x := by
  cases l with
  | nil => simp at h
  | cons b l => simpa [List.getLast?_cons_cons] using h

theorem Join_last (d f : Str) (hf : IsName f) :
    (strings.Split (Join [d, f]) Separator).getLast? = some f := by
  have hsplit : strings.Split f Separator = [f] := strings.Split_of_not_mem f _ hf.2.1
  by_cases hd : d = []
  · subst hd
    have : Join [[], f] = Join [f] := by simp [Join]
    rw [this, Join_single f hf, hsplit]
    rfl
  · have hj : Join [d, f] = Clean (d ++ Separator :: f) := by
      simp [Join, hd, strings.Join, List.intercalate]
    have hs : strings.Split (d ++ Separator :: f) Separator
        = strings.Split d Separator ++ [f] := by
      rw [strings.Split_append_sep, hsplit]
    rw [hj]
    simp only [Clean]
    have hne : d ++ Separator :: f ≠ [] := by simp
    simp only [hne, if_false, hs, List.foldl_append, List.foldl_cons, List.foldl_nil,
      cleanStep_name _ _ f hf, List.reverse_cons]
    obtain ⟨h1, h2⟩ := Split_body_last
      ((strings.Split d Separator).foldl
        (cleanStep ((d ++ Separator :: f).head? = some Separator)) []).reverse f hf
    split
    · simp only [strings.Split]
      simp only [if_true]
      exact getLast?_cons_of _ _ _ h1
    · exact h1

end filepath

/-! ## `findAbsPath` and the searches it reaches -/

theorem findAbsPathLoop_first (fs : FS) (fuel : Nat) (file root : Str) (split : List Str)
    (k i0 todo : Nat)
    (hskip : ∀ j, i0 ≤ j → j < i0 + k →
      strings.HasSuffix root (filepath.Join (split.take (j + 1))) = true)
    (hstop : strings.HasSuffix root (filepath.Join (split.take (i0 + k + 1))) = false)
    (htodo : k < todo) :
    findAbsPathLoop fs fuel file root split todo i0 =
      (findFile fs fuel root (split.drop (i0 + k))).map
        (findAbsPathResult file root (filepath.Join (split.take (i0 + k)))) := by
  induction k generalizing i0 todo with
  | zero =>
    obtain ⟨t, rfl⟩ : ∃ t, todo = t + 1 := ⟨todo - 1, by omega⟩
    simp only [Nat.add_zero] at hstop ⊢
    simp [findAbsPathLoop, hstop]
  | succ k ih =>
    obtain ⟨t, rfl⟩ : ∃ t, todo = t + 1 := ⟨todo - 1, by omega⟩
    have h0 := hskip i0 (Nat.le_refl _) (by omega)
    have e : i0 + (k + 1) = i0 + 1 + k := by omega
    simp only [findAbsPathLoop, h0, if_true]
    rw [e] at hstop ⊢
    exact ih (i0 + 1) t (fun j h1 h2 => hskip j (by omega) (by omega)) hstop (by omega)

theorem findAbsPath_eq_first (fs : FS) (fuel : Nat) (file start dir : Str) (i : Nat)
    (hrel : filepath.IsAbs file = false)
    (hdir : (if start = [] then fs.getwd else .ok start) = .ok dir)
    (hi : FirstUnskipped dir (strings.Split file filepath.Separator) i) :
    findAbsPath fs fuel file start =
      (findFile fs fuel dir ((strings.Split file filepath.Separator).drop i)).map
        (findAbsPathResult file dir
          (filepath.Join ((strings.Split file filepath.Separator).take i))) := by
  obtain ⟨h1, h2, h3⟩ := hi
  have := findAbsPathLoop_first fs fuel file dir (strings.Split file filepath.Separator)
    i 0 (strings.Split file filepath.Separator).length
    (fun j _ hj => h2 j (by omega)) (by simpa using h3) h1
  simp only [Nat.zero_add] at this
  simp only [findAbsPath, hrel, hdir]
  simpa using this

theorem findAbsPathLoop_mono (fs : FS) (n m : Nat) (file root : Str) (split : List Str)
    (todo i : Nat) (r : Run (Str × Option Err)) (hnm : n ≤ m)
    (h : findAbsPathLoop fs n file root split todo i = some r) :
    findAbsPathLoop fs m file root split todo i = some r := by
  induction todo generalizing i with
  | zero => simpa [findAbsPathLoop] using h
  | succ t ih =>
    simp only [findAbsPathLoop] at h ⊢
    split
    · rename_i hs
      simp only [hs, if_true] at h
      exact ih _ h
    · rename_i hs
      simp only [hs, if_false] at h
      obtain ⟨x, hx, hr⟩ := Option.map_eq_some'.mp h
      rw [findFile_mono fs n m _ _ _ hnm hx]
      simp [hr]

theorem findAbsPath_mono (fs : FS) (n m : Nat) (file root : Str)
    (r : Run (Str × Option Err)) (hnm : n ≤ m) (h : findAbsPath fs n file root = some r) :
    findAbsPath fs m file root = some r := by
  simp only [findAbsPath] at h ⊢
  split
  · rename_i ha
    simpa [ha] using h
  · rename_i ha
    simp only [ha, if_false] at h
    split
    · rename_i e he
      simpa [he] using h
    · rename_i d hd
      simp only [hd] at h
      exact findAbsPathLoop_mono fs n m _ _ _ _ _ _ hnm h

theorem findAbsPath_never_of_error (fs : FS) (n : Nat) (file root : Str) (e : Err)
    (h : findAbsPath fs n file root = some (.ret ([], some e))) (fuel : Nat) (p : Str) :
    findAbsPath fs fuel file root ≠ some (.ret (p, none)) := by
  intro hp
  rcases le_total fuel n with hle | hle
  · have := findAbsPath_mono fs fuel n _ _ _ hle hp
    rw [h] at this
    simp at this
  · have := findAbsPath_mono fs n fuel _ _ _ hle h
    rw [hp] at this
    simp at this

theorem exists_uniform_fuel (fs : FS) (root : Str) (segs : List Str) (es : List DirEntry)
    (h : ∀ x ∈ es, x.isDir = true → ∃ fuel out,
      findFile fs fuel (filepath.Join [root, x.name]) segs = some (.ret (out, false, none))) :
    ∃ bound, ∀ fuel, bound ≤ fuel → ∀ x ∈ es, x.isDir = true → ∃ out,
      findFile fs fuel (filepath.Join [root, x.name]) segs = some (.ret (out, false, none)) := by
  induction es with
  | nil => exact ⟨0, fun _ _ x hx => absurd hx (List.not_mem_nil x)⟩
  | cons e rest ih =>
    obtain ⟨b1, hb1⟩ := ih (fun x hx => h x (List.mem_cons_of_mem _ hx))
    by_cases hd : e.isDir = true
    · obtain ⟨f, out, hf⟩ := h e (List.mem_cons_self _ _) hd
      refine ⟨max b1 f, fun fuel hfuel x hx hxd => ?_⟩
      rcases List.mem_cons.mp hx with rfl | hx
      · exact ⟨out, findFile_mono fs f fuel _ _ _ (le_trans (le_max_right _ _) hfuel) hf⟩
      · exact hb1 fuel (le_trans (le_max_left _ _) hfuel) x hx hxd
    · refine ⟨b1, fun fuel hfuel x hx hxd => ?_⟩
      rcases List.mem_cons.mp hx with rfl | hx
      · exact absurd hxd hd
      · exact hb1 fuel hfuel x hx hxd

theorem findFile_reaches_ambiguous (fs : FS) (root : Str) (segs : List Str) (dir : Str)
    (rest : List Str) (hreach : Reaches fs root segs dir rest) (pfx : Str)
    (remaining found : List Str) (hrest : rest = pfx :: remaining)
    (hg : filepath.Glob fs (filepath.Join [dir, pfx]) = .ok found) (hlen : found.length > 1) :
    ∃ bound, ∀ fuel, bound ≤ fuel →
      findFile fs fuel root segs = some (.ret ([], false, some (.multipleMatches found))) := by
  induction hreach with
  | here root segs =>
    subst hrest
    refine ⟨1, fun fuel hfuel => ?_⟩
    obtain ⟨k, rfl⟩ : ∃ k, fuel = k + 1 := ⟨fuel - 1, by omega⟩
    exact findFile_of_glob_many fs k root pfx remaining found hg hlen
  | descend root p m rem dir rest hgm hrem _ ih =>
    obtain ⟨b, hb⟩ := ih hrest hg
    refine ⟨b + 1, fun fuel hfuel => ?_⟩
    obtain ⟨k, rfl⟩ : ∃ k, fuel = k + 1 := ⟨fuel - 1, by omega⟩
    rw [findFile_of_glob_one fs k root p m rem hgm hrem]
    exact hb k (by omega)
  | subdir root p rem before after entry dir rest hg0 hr hd hbefore _ ih =>
    obtain ⟨b, hb⟩ := ih hrest hg
    obtain ⟨b2, hb2⟩ := exists_uniform_fuel fs root (p :: rem) before hbefore
    refine ⟨max b b2 + 1, fun fuel hfuel => ?_⟩
    obtain ⟨k, rfl⟩ : ∃ k, fuel = k + 1 := ⟨fuel - 1, by omega⟩
    have hk1 : b ≤ k := le_trans (le_max_left b b2) (by omega)
    have hk2 : b2 ≤ k := le_trans (le_max_right b b2) (by omega)
    rw [findFile_of_entries fs k root p rem _ hg0 hr]
    exact findFileEntries_error _ _ _ _ _ _ _ _ hd (hb2 k hk2) (hb k hk1)

/-- C9: when glob-matching the first segment directly under `root` yields
more than one entry, `findFile` fails with the error "multiple matches",
whatever the remaining segments and the subdirectories are; every search that
reaches this call fails with the same error; and `findAbsPath` on a path whose
search reaches this call fails as well. -/
theorem findFile_multiple_matches (fs : FS) (root pfx : Str) (remaining found : List Str)
    (hg : filepath.Glob fs (filepath.Join [root, pfx]) = .ok found)
    (hlen : found.length > 1) :
    (∀ fuel, findFile fs (fuel + 1) root (pfx :: remaining)
      = some (.ret ([], false, some (.multipleMatches found)))) ∧
    (∀ top segs, Reaches fs top segs root (pfx :: remaining) →
      ∃ bound, ∀ fuel, bound ≤ fuel →
        findFile fs fuel top segs = some (.ret ([], false, some (.multipleMatches found)))) ∧
    (∀ file start dir i, filepath.IsAbs file = false →
      (if start = [] then fs.getwd else .ok start) = .ok dir →
      FirstUnskipped dir (strings.Split file filepath.Separator) i →
      Reaches fs dir ((strings.Split file filepath.Separator).drop i) root (pfx :: remaining) →
      ∃ bound, ∀ fuel, bound ≤ fuel →
        findAbsPath fs fuel file start
          = some (.ret ([], some (.cannotFindFile (.multipleMatches found) file)))) := by
  refine ⟨fun fuel => findFile_of_glob_many fs fuel root pfx remaining found hg hlen, ?_, ?_⟩
  · intro top segs hreach
    exact findFile_reaches_ambiguous fs top segs root _ hreach pfx remaining found rfl hg hlen
  · intro file start dir i hrel hdir hi hreach
    obtain ⟨b, hb⟩ :=
      findFile_reaches_ambiguous fs dir _ root _ hreach pfx remaining found rfl hg hlen
    refine ⟨b, fun fuel hfuel => ?_⟩
    rw [findAbsPath_eq_first fs fuel file start dir i hrel hdir hi, hb fuel hfuel]
    rfl

/-- C1 (amended): for a relative path, `findAbsPath` searches only the
suffix `[si..sn]` of the first index `i` for which `root` does not end with
the joined segments `s0/../si`, and the outcome of that one search decides
the result: a success is returned, "not found" makes `findAbsPath` fail with
"cannot find file in root" (the shorter suffixes are not tried), and an error
makes it fail with "cannot find file". -/
theorem findAbsPath_first_suffix (fs : FS) (fuel : Nat) (file start dir : Str) (i : Nat)
    (hrel : filepath.IsAbs file = false)
    (hdir : (if start = [] then fs.getwd else .ok start) = .ok dir)
    (hi : FirstUnskipped dir (strings.Split file filepath.Separator) i) :
    (∀ p, findFile fs fuel dir ((strings.Split file filepath.Separator).drop i)
        = some (.ret (p, true, none)) →
      findAbsPath fs fuel file start = some (.ret (p, none))) ∧
    (∀ out, findFile fs fuel dir ((strings.Split file filepath.Separator).drop i)
        = some (.ret (out, false, none)) →
      findAbsPath fs fuel file start
        = some (.ret ([], some (.cannotFindInRoot dir
            (filepath.Join ((strings.Split file filepath.Separator).take i)))))) ∧
    (∀ out ok e, findFile fs fuel dir ((strings.Split file filepath.Separator).drop i)
        = some (.ret (out, ok, some e)) →
      findAbsPath fs fuel file start = some (.ret ([], some (.cannotFindFile e file)))) := by
  rw [findAbsPath_eq_first fs fuel file start dir i hrel hdir hi]
  refine ⟨?_, ?_, ?_⟩
  · intro p h
    rw [h]; rfl
  · intro out h
    rw [h]; rfl
  · intro out ok e h
    rw [h]; rfl

/-- C1 (witness): with root `/r/b` and path `b/foo.go` the first segment is
skipped, and the search of the suffix `foo.go` gives the result. -/
theorem findAbsPath_first_suffix_witness :
    (filepath.IsAbs "b/foo.go".toList = false ∧
      FirstUnskipped "/r/b".toList (strings.Split "b/foo.go".toList filepath.Separator) 1) ∧
    findAbsPath fsTwoDirs 2 "b/foo.go".toList "/r/b".toList
      = some (.ret ("/r/b/foo.go".toList, none)) :=
  have hi : FirstUnskipped "/r/b".toList
      (strings.Split "b/foo.go".toList filepath.Separator) 1 :=
    ⟨by decide, fun j hj => by
      obtain rfl : j = 0 := by omega
      decide, by decide⟩
  ⟨⟨by decide, hi⟩,
    (findAbsPath_first_suffix fsTwoDirs 2 "b/foo.go".toList "/r/b".toList "/r/b".toList 1
      (by decide) (by decide) hi).1 "/r/b/foo.go".toList (by decide)⟩

/-- C1 (counterexample): in the tree `/r/foo.go`, no index is skipped for the
path `x/foo.go`; the search of the suffix `x/foo.go` reports "not found", the
search of the shorter suffix `foo.go` would succeed, and `findAbsPath` fails
without trying it. -/
theorem findAbsPath_later_suffix_not_tried :
    strings.HasSuffix "/r".toList (filepath.Join ["x".toList]) = false ∧
    strings.HasSuffix "/r".toList (filepath.Join ["x".toList, "foo.go".toList]) = false ∧
    findFile fsOneFile 5 "/r".toList ["x".toList, "foo.go".toList]
      = some (.ret ([], false, none)) ∧
    findFile fsOneFile 5 "/r".toList ["foo.go".toList]
      = some (.ret ("/r/foo.go".toList, true, none)) ∧
    findAbsPath fsOneFile 5 "x/foo.go".toList "/r".toList
      = some (.ret ([], some (.cannotFindInRoot "/r".toList []))) ∧
    (∀ fuel p, findAbsPath fsOneFile fuel "x/foo.go".toList "/r".toList
      ≠ some (.ret (p, none))) :=
  ⟨by decide, by decide, by decide, by decide, by decide,
    findAbsPath_never_of_error _ 5 _ _ (.cannotFindInRoot "/r".toList []) (by decide)⟩

/-- C9 (witness): in the tree `/r/d/a.go`, `/r/d/b.go` the pattern `*.go`
matches two entries under `/r/d`; the search of `/r/d` fails, and so does
`findAbsPath` from the root `/r`, whose search reaches `/r/d`. -/
theorem findFile_multiple_matches_witness :
    (filepath.Glob fsTwoMatches (filepath.Join ["/r/d".toList, "*.go".toList])
        = .ok ["/r/d/a.go".toList, "/r/d/b.go".toList]) ∧
    findFile fsTwoMatches 1 "/r/d".toList ["*.go".toList]
      = some (.ret ([], false,
          some (.multipleMatches ["/r/d/a.go".toList, "/r/d/b.go".toList]))) ∧
    ∃ bound, ∀ fuel, bound ≤ fuel →
      findAbsPath fsTwoMatches fuel "*.go".toList "/r".toList
        = some (.ret ([], some (.cannotFindFile
            (.multipleMatches ["/r/d/a.go".toList, "/r/d/b.go".toList]) "*.go".toList))) :=
  have h := findFile_multiple_matches fsTwoMatches "/r/d".toList "*.go".toList []
    ["/r/d/a.go".toList, "/r/d/b.go".toList] (by decide) (by decide)
  ⟨by decide, h.1 0,
    h.2.2 "*.go".toList "/r".toList "/r".toList 0 (by decide) (by decide)
      ⟨by decide, fun j hj => absurd hj (Nat.not_lt_zero j), by decide⟩
      (Reaches.subdir "/r".toList "*.go".toList [] [] [] ⟨"d".toList, true⟩ "/r/d".toList
        ["*.go".toList] (by decide) (by decide) rfl
        (fun x hx => absurd hx (List.not_mem_nil x))
        (Reaches.here _ _))⟩

/-! ## Patterns without glob metacharacters -/

theorem Glob_of_no_meta (fs : FS) (pattern : Str) (h : filepath.hasMeta pattern = false) :
    filepath.Glob fs pattern = if fs.lstat pattern then .ok [pattern] else .ok [] := by
  simp [filepath.Glob, h]

/-! ## `splitFileLine`, `formatGitURL` and `findAbsPath`: the simple cases -/

namespace strings

theorem Split_length (s : Str) (sep : Char) : (Split s sep).length = s.count sep + 1 := by
  induction s with
  | nil => simp [Split]
  | cons c cs ih =>
    by_cases hc : c = sep
    · subst hc
      simp [Split, ih]
    · have hne := Split_ne_nil cs sep
      cases hs : Split cs sep with
      | nil => exact absurd hs hne
      | cons piece rest =>
        rw [hs] at ih
        have hc2 : ¬ (c == sep) = true := by simpa using hc
        simp only [Split, hc, if_false, hs, List.length_cons, List.count_cons, hc2]
        simpa using ih

end strings

/-- C11: for every input without a `:`, `splitFileLine` succeeds and returns
the input unchanged as the path and `0` as the line. -/
theorem splitFileLine_no_colon (txt : Str) (h : ':' ∉ txt) :
    splitFileLine txt = (txt, 0, none) := by
  simp [splitFileLine, strings.Split_of_not_mem txt _ h]

/-- C12: for every input with two or more `:`, `splitFileLine` fails with the
error "contains multiple ':'", whatever stands between and after the colons. -/
theorem splitFileLine_many_colons (txt : Str) (h : 2 ≤ txt.count ':') :
    splitFileLine txt = ([], 0, some .multipleColons) := by
  have hl : (strings.Split txt ':').length > 2 := by
    rw [strings.Split_length]; omega
  simp [splitFileLine, hl]

/-- C13: for every absolute path `p`, every root (the empty root included),
every file system and every bound on the recursion (zero included),
`findAbsPath` returns `p` unchanged: neither the file system nor the search is
consulted. -/
theorem findAbsPath_absolute (fs : FS) (fuel : Nat) (p root : Str)
    (h : filepath.IsAbs p = true) : findAbsPath fs fuel p root = some (.ret (p, none)) := by
  simp [findAbsPath, h]

/-- C14: for every remote that does not contain `git@github.com:`,
`formatGitURL` returns the empty URL and the error "only github repos
supported", for every branch, path and line. -/
theorem formatGitURL_unsupported (remote branch path : Str) (line : Int)
    (h : ¬ "git@github.com:".toList <:+: remote) :
    formatGitURL remote branch path line = ([], some .onlyGithub) := by
  have hc : strings.Contains remote "git@github.com:".toList = false := by
    cases hx : strings.Contains remote "git@github.com:".toList with
    | false => rfl
    | true => exact absurd ((strings.Contains_iff _ _).mp hx) h
  simp only [formatGitURL, hc, Bool.not_false, if_true]

theorem toDigitsCore_head (fuel n : Nat) (h : n < fuel)
    (hz : (Nat.toDigitsCore 10 fuel n []).head? = some '0') :
    Nat.toDigitsCore 10 fuel n [] = ['0'] := by
  induction fuel generalizing n with
  | zero => omega
  | succ fuel ih =>
    have hd := digitChar_toNat (n % 10) (Nat.mod_lt _ (by decide))
    simp only [Nat.toDigitsCore] at hz ⊢
    split
    · rename_i h0
      simp only [h0, if_true, List.head?_cons, Option.some.injEq] at hz
      rw [hz]
    · rename_i h0
      simp only [h0, if_false] at hz
      have hlt : n / 10 < fuel := by omega
      rw [toDigitsCore_acc] at hz
      obtain ⟨h1, _, h3⟩ := toDigitsCore_spec fuel (n / 10) hlt
      have hz2 : (Nat.toDigitsCore 10 fuel (n / 10) []).head? = some '0' := by
        cases hx : Nat.toDigitsCore 10 fuel (n / 10) [] with
        | nil => exact absurd hx h3
        | cons c cs =>
          rw [hx] at hz
          simpa using hz
      have := ih (n / 10) hlt hz2
      rw [this] at h1
      have hv : decimalValue ['0'] = 0 := by decide
      rw [hv] at h1
      exact absurd h1.symm h0

/-- The decimal rendering of an integer: an optional minus sign and the
digits of the absolute value, without leading zeros. -/
theorem FormatInt_spec (line : Int) :
    ∃ ds, IsDecimal ds ∧ decimalValue ds = line.natAbs ∧
      (ds.head? = some '0' → ds = ['0']) ∧
      strconv.FormatInt line = (if line < 0 then '-' :: ds else ds) := by
  cases line with
  | ofNat m =>
    obtain ⟨h1, h2, h3⟩ := toDigits_spec m
    refine ⟨Nat.toDigits 10 m, ⟨h3, h2⟩, by simpa using h1,
      toDigitsCore_head (m + 1) m (Nat.lt_succ_self m), ?_⟩
    have : ¬ (Int.ofNat m < 0) := by simp
    simp only [this, if_false]
    rfl
  | negSucc m =>
    obtain ⟨h1, h2, h3⟩ := toDigits_spec (m + 1)
    refine ⟨Nat.toDigits 10 (m + 1), ⟨h3, h2⟩, by simpa using h1,
      toDigitsCore_head (m + 2) (m + 1) (Nat.lt_succ_self _), ?_⟩
    have : Int.negSucc m < 0 := Int.negSucc_lt_zero m
    simp only [this, if_true]
    rfl

/-- C15: for every remote, branch and path that `formatGitURL` accepts and
every line other than `0`, the URL for that line is the URL for line `0`
followed by `#L` and the decimal rendering of the line: a minus sign when the
line is negative, then the digits of its absolute value without leading
zeros; for instance line `42` gives `...#L42` and line `-5` gives `...#L-5`. -/
theorem formatGitURL_line (remote branch path : Str) (line : Int)
    (hacc : (formatGitURL remote branch path 0).2 = none) (hline : line ≠ 0) :
    (∃ ds, IsDecimal ds ∧ decimalValue ds = line.natAbs ∧
      (ds.head? = some '0' → ds = ['0']) ∧
      formatGitURL remote branch path line =
        ((formatGitURL remote branch path 0).1
          ++ ("#L".toList ++ (if line < 0 then '-' :: ds else ds)), none)) ∧
    formatGitURL "git@github.com:o/r.git".toList "main".toList "a.go".toList 42
      = ("https://github.com/o/r/blob/main/a.go#L42".toList, none) ∧
    formatGitURL "git@github.com:o/r.git".toList "main".toList "a.go".toList (-5)
      = ("https://github.com/o/r/blob/main/a.go#L-5".toList, none) := by
  refine ⟨?_, by decide, by decide⟩
  obtain ⟨ds, h1, h2, h3, h4⟩ := FormatInt_spec line
  refine ⟨ds, h1, h2, h3, ?_⟩
  rw [← h4]
  cases hc : strings.Contains remote "git@github.com:".toList with
  | false =>
    simp only [formatGitURL, hc, Bool.not_false, if_true] at hacc
    cases hacc
  | true =>
    simp only [formatGitURL, hc, Bool.not_true, Bool.false_eq_true, if_false, ne_eq, hline,
      not_false_eq_true, if_true, not_true_eq_false]

theorem findFileEntries_no_panic (search : Str → Option (Run (Str × Bool × Option Err)))
    (root : Str) (es : List DirEntry) (h : ∀ d, search d ≠ some .panic) :
    findFileEntries search root es ≠ some .panic := by
  induction es with
  | nil => simp [findFileEntries]
  | cons e rest ih =>
    simp only [findFileEntries]
    split
    · exact ih
    · cases hs : search (filepath.Join [root, e.name]) with
      | none => simp
      | some x =>
        cases x with
        | panic => exact absurd hs (h _)
        | ret res =>
          obtain ⟨found, ok, err⟩ := res
          cases err with
          | some er => simp
          | none =>
            cases ok with
            | true => simp
            | false => simpa using ih

theorem findFile_no_panic (fs : FS) (fuel : Nat) (root : Str) (segs : List Str)
    (h : segs ≠ []) : findFile fs fuel root segs ≠ some .panic := by
  induction fuel generalizing root segs with
  | zero => simp [findFile]
  | succ n ih =>
    cases segs with
    | nil => exact absurd rfl h
    | cons pfx remaining =>
      rw [findFile]
      cases hg : filepath.Glob fs (filepath.Join [root, pfx]) with
      | error e => simp
      | ok found =>
        simp only
        split
        · simp
        · split
          · simp
          · rename_i h2
            split
            · rename_i h3
              apply ih
              intro hrem
              apply h2
              exact ⟨h3, by simp [hrem]⟩
            · cases hr : fs.readDir root with
              | permission => simp
              | failed e => simp
              | entries es =>
                simp only
                exact findFileEntries_no_panic _ _ _ (fun d => ih d _ (by simp))

theorem findAbsPathLoop_no_panic (fs : FS) (fuel : Nat) (file root : Str) (split : List Str)
    (todo i : Nat) (h : i + todo ≤ split.length) :
    findAbsPathLoop fs fuel file root split todo i ≠ some .panic := by
  induction todo generalizing i with
  | zero => simp [findAbsPathLoop]
  | succ t ih =>
    simp only [findAbsPathLoop]
    split
    · exact ih (i + 1) (by omega)
    · have hne : split.drop i ≠ [] := by
        intro hd
        have := congrArg List.length hd
        simp at this
        omega
      have hf := findFile_no_panic fs fuel root (split.drop i) hne
      cases hx : findFile fs fuel root (split.drop i) with
      | none => simp
      | some x =>
        cases x with
        | panic => exact absurd hx hf
        | ret res =>
          obtain ⟨abs, ok, err⟩ := res
          cases err with
          | some e => simp [findAbsPathResult]
          | none => cases ok <;> simp [findAbsPathResult]

/-- C20: `findFile` on a non-empty segment list never panics, whatever the
file system, the directory and the bound on the recursion, so none of its
recursive calls receives an empty list; and `findAbsPath` never panics, for
every path and root. -/
theorem search_never_panics (fs : FS) (fuel : Nat) (file root dir : Str) (segs : List Str)
    (h : segs ≠ []) :
    findFile fs fuel dir segs ≠ some .panic ∧ findAbsPath fs fuel file root ≠ some .panic := by
  refine ⟨findFile_no_panic fs fuel dir segs h, ?_⟩
  simp only [findAbsPath]
  split
  · simp
  · split
    · simp
    · exact findAbsPathLoop_no_panic fs fuel file _ _ _ 0 (by simp)

/-- C11 (witness): the input `a/b.go`. -/
theorem splitFileLine_no_colon_witness :
    ':' ∉ "a/b.go".toList ∧ splitFileLine "a/b.go".toList = ("a/b.go".toList, 0, none) :=
  ⟨by decide, splitFileLine_no_colon "a/b.go".toList (by decide)⟩

/-- C12 (witness): the input `a.go:12:3`. -/
theorem splitFileLine_many_colons_witness :
    2 ≤ "a.go:12:3".toList.count ':' ∧
      splitFileLine "a.go:12:3".toList = ([], 0, some .multipleColons) :=
  ⟨by decide, splitFileLine_many_colons "a.go:12:3".toList (by decide)⟩

/-- C13 (witness): the path `/x/y.go` with the empty root and the bound `0`. -/
theorem findAbsPath_absolute_witness :
    filepath.IsAbs "/x/y.go".toList = true ∧
      findAbsPath fsOneFile 0 "/x/y.go".toList [] = some (.ret ("/x/y.go".toList, none)) :=
  ⟨by decide, findAbsPath_absolute fsOneFile 0 "/x/y.go".toList [] (by decide)⟩

/-- C14 (witness): the remote `https://github.com/acme/widgets.git`. -/
theorem formatGitURL_unsupported_witness :
    (¬ "git@github.com:".toList <:+: "https://github.com/acme/widgets.git".toList) ∧
      formatGitURL "https://github.com/acme/widgets.git".toList "main".toList "a.go".toList 7
        = ([], some .onlyGithub) :=
  ⟨by decide, formatGitURL_unsupported "https://github.com/acme/widgets.git".toList
    "main".toList "a.go".toList 7 (by decide)⟩

/-- C15 (witness): the remote `git@github.com:acme/widgets.git` with line
`1207`. -/
theorem formatGitURL_line_witness :
    ((formatGitURL "git@github.com:acme/widgets.git".toList "dev".toList "x.go".toList 0).2
        = none ∧ (1207 : Int) ≠ 0) ∧
    ((∃ ds, IsDecimal ds ∧ decimalValue ds = (1207 : Int).natAbs ∧
      (ds.head? = some '0' → ds = ['0']) ∧
      formatGitURL "git@github.com:acme/widgets.git".toList "dev".toList "x.go".toList 1207 =
        ((formatGitURL "git@github.com:acme/widgets.git".toList "dev".toList
            "x.go".toList 0).1
          ++ ("#L".toList ++ (if (1207 : Int) < 0 then '-' :: ds else ds)), none)) ∧
    formatGitURL "git@github.com:o/r.git".toList "main".toList "a.go".toList 42
      = ("https://github.com/o/r/blob/main/a.go#L42".toList, none) ∧
    formatGitURL "git@github.com:o/r.git".toList "main".toList "a.go".toList (-5)
      = ("https://github.com/o/r/blob/main/a.go#L-5".toList, none)) :=
  ⟨by decide, formatGitURL_line "git@github.com:acme/widgets.git".toList "dev".toList
    "x.go".toList 1207 (by decide) (by decide)⟩

/-- C20 (witness): the search for `foo.go` in the tree `/r/foo.go`. -/
theorem search_never_panics_witness :
    ["foo.go".toList] ≠ [] ∧
    (findFile fsOneFile 3 "/r".toList ["foo.go".toList] ≠ some .panic ∧
      findAbsPath fsOneFile 3 "x/foo.go".toList "/r".toList ≠ some .panic) :=
  ⟨by decide, search_never_panics fsOneFile 3 "x/foo.go".toList "/r".toList "/r".toList
    ["foo.go".toList] (by decide)⟩

/-! ## `findAbsPath`: one search -/

theorem findAbsPathLoop_all_skipped (fs : FS) (fuel : Nat) (file root : Str)
    (split : List Str) (todo i : Nat)
    (h : ∀ j, i ≤ j → j < i + todo →
      strings.HasSuffix root (filepath.Join (split.take (j + 1))) = true) :
    findAbsPathLoop fs fuel file root split todo i = some (.ret ([], some .unexpected)) := by
  induction todo generalizing i with
  | zero => rfl
  | succ t ih =>
    have h0 := h i (Nat.le_refl _) (by omega)
    simp only [findAbsPathLoop, h0, if_true]
    exact ih (i + 1) (fun j h1 h2 => h j (by omega) (by omega))

theorem firstUnskipped_or_all (root : Str) (split : List Str) :
    (∃ i, FirstUnskipped root split i) ∨
      (∀ j, j < split.length →
        strings.HasSuffix root (filepath.Join (split.take (j + 1))) = true) := by
  by_cases hex : ∃ j, j < split.length ∧
      strings.HasSuffix root (filepath.Join (split.take (j + 1))) = false
  · left
    classical
    refine ⟨Nat.find hex, (Nat.find_spec hex).1, ?_, (Nat.find_spec hex).2⟩
    intro j hj
    have hmin := Nat.find_min hex hj
    have hlt : j < split.length := lt_trans hj (Nat.find_spec hex).1
    cases hs : strings.HasSuffix root (filepath.Join (split.take (j + 1))) with
    | true => rfl
    | false => exact absurd ⟨hlt, hs⟩ hmin
  · right
    intro j hj
    cases hs : strings.HasSuffix root (filepath.Join (split.take (j + 1))) with
    | true => rfl
    | false => exact absurd ⟨j, hj, hs⟩ hex

/-- C18: for a relative path, the result of `findAbsPath` (a bound that is
reached included) is the result of the single call of `findFile` on the
suffix `split[i:]` of the first index `i` that is not skipped, passed through
the `if err / else if !ok / else` chain; when every index is skipped
`findAbsPath` fails with "unexpected error" whatever the file system and the
bound are; one of the two cases always holds; and the empty path is of the
second kind. -/
theorem findAbsPath_one_search (fs : FS) (fuel : Nat) (file start dir : Str)
    (hrel : filepath.IsAbs file = false)
    (hdir : (if start = [] then fs.getwd else .ok start) = .ok dir) :
    (∀ i, FirstUnskipped dir (strings.Split file filepath.Separator) i →
      findAbsPath fs fuel file start =
        (findFile fs fuel dir ((strings.Split file filepath.Separator).drop i)).map
          (findAbsPathResult file dir
            (filepath.Join ((strings.Split file filepath.Separator).take i)))) ∧
    ((∀ j, j < (strings.Split file filepath.Separator).length →
        strings.HasSuffix dir
          (filepath.Join ((strings.Split file filepath.Separator).take (j + 1))) = true) →
      findAbsPath fs fuel file start = some (.ret ([], some .unexpected))) ∧
    ((∃ i, FirstUnskipped dir (strings.Split file filepath.Separator) i) ∨
      (∀ j, j < (strings.Split file filepath.Separator).length →
        strings.HasSuffix dir
          (filepath.Join ((strings.Split file filepath.Separator).take (j + 1))) = true)) ∧
    findAbsPath fs fuel [] start = some (.ret ([], some .unexpected)) := by
  refine ⟨fun i hi => findAbsPath_eq_first fs fuel file start dir i hrel hdir hi, ?_,
    firstUnskipped_or_all dir _, ?_⟩
  · intro hall
    simp only [findAbsPath, hrel, hdir]
    exact findAbsPathLoop_all_skipped fs fuel file dir _ _ 0
      (fun j _ hj => hall j (by omega))
  · have habs : filepath.IsAbs ([] : Str) = false := by decide
    simp only [findAbsPath, habs, hdir]
    apply findAbsPathLoop_all_skipped
    intro j _ hj
    have hj0 : j = 0 := by
      simp [strings.Split] at hj
      omega
    subst hj0
    have : filepath.Join ((strings.Split [] filepath.Separator).take 1) = [] := by decide
    rw [this]
    simp [strings.HasSuffix]

/-- C18 (witness): with root `/r/b` and path `b/foo.go` the index `1` is the
first one not skipped, and the result is the one of the search of `foo.go`. -/
theorem findAbsPath_one_search_witness :
    (filepath.IsAbs "b/foo.go".toList = false ∧
      (if "/r/b".toList = [] then fsTwoDirs.getwd else .ok "/r/b".toList)
        = .ok "/r/b".toList) ∧
    findAbsPath fsTwoDirs 2 "b/foo.go".toList "/r/b".toList =
      (findFile fsTwoDirs 2 "/r/b".toList
        ((strings.Split "b/foo.go".toList filepath.Separator).drop 1)).map
        (findAbsPathResult "b/foo.go".toList "/r/b".toList
          (filepath.Join ((strings.Split "b/foo.go".toList filepath.Separator).take 1))) :=
  ⟨by decide,
    (findAbsPath_one_search fsTwoDirs 2 "b/foo.go".toList "/r/b".toList "/r/b".toList
      (by decide) (by decide)).1 1
      ⟨by decide, fun j hj => by
        obtain rfl : j = 0 := by omega
        decide, by decide⟩⟩

/-! ## `formatGitURL` on clean paths -/

namespace strings

theorem Join_cons_cons (x y : Str) (rest : List Str) (sep : Str) :
    Join (x :: y :: rest) sep = x ++ sep ++ Join (y :: rest) sep := by
  simp [Join, List.intercalate]

theorem Join_singleton (x : Str) (sep : Str) : Join [x] sep = x := by
  simp [Join, List.intercalate]

theorem Join_Split (s : Str) (sep : Char) : Join (Split s sep) [sep] = s := by
  induction s with
  | nil => simp [Split, Join, List.intercalate]
  | cons c cs ih =>
    have hne := Split_ne_nil cs sep
    cases hs : Split cs sep with
    | nil => exact absurd hs hne
    | cons piece rest =>
      rw [hs] at ih
      by_cases hc : c = sep
      · subst hc
        simp only [Split, if_true, hs]
        rw [Join_cons_cons, ih]
        simp
      · simp only [Split, hc, if_false, hs]
        cases rest with
        | nil =>
          rw [Join_singleton] at ih ⊢
          rw [ih]
        | cons r rs =>
          rw [Join_cons_cons] at ih ⊢
          simp only [List.cons_append, List.append_assoc] at ih ⊢
          rw [ih]

end strings

namespace filepath

theorem foldl_cleanStep_names (rooted : Bool) (names out : List Str)
    (h : ∀ x ∈ names, IsName x) :
    names.foldl (cleanStep rooted) out = names.reverse ++ out := by
  induction names generalizing out with
  | nil => rfl
  | cons x xs ih =>
    simp only [List.foldl_cons, cleanStep_name rooted out x (h x (by simp))]
    rw [ih _ (fun y hy => h y (by simp [hy]))]
    simp

theorem Clean_of_clean (p : Str) (h : IsCleanRel p) : Clean p = p := by
  have hne : p ≠ [] := by
    rintro rfl
    exact (h [] (by simp [strings.Split])).1 rfl
  have hroot : ¬ p.head? = some Separator := by
    intro hh
    cases p with
    | nil => exact hne rfl
    | cons c cs =>
      simp at hh
      subst hh
      exact (h [] (by simp [strings.Split])).1 rfl
  simp only [Clean, hne, if_false, hroot, decide_False, Bool.false_eq_true]
  rw [foldl_cleanStep_names _ _ _ h]
  simp only [List.append_nil, List.reverse_reverse, strings.Join_Split, hne, if_false]

theorem isCleanRel_append (a b : Str) (ha : IsCleanRel a) (hb : IsCleanRel b) :
    IsCleanRel (a ++ Separator :: b) := by
  intro seg hseg
  rw [strings.Split_append_sep, List.mem_append] at hseg
  rcases hseg with h | h
  · exact ha seg h
  · exact hb seg h

theorem Join_blob (branch path : Str) (hb : IsCleanRel branch) (hp : IsCleanRel path) :
    Join ["blob".toList, branch, path]
      = "blob/".toList ++ branch ++ "/".toList ++ path := by
  have hblob : IsCleanRel "blob".toList := by decide
  have hall := isCleanRel_append _ _ hblob (isCleanRel_append _ _ hb hp)
  have hj : Join ["blob".toList, branch, path]
      = Clean ("blob".toList ++ Separator :: (branch ++ Separator :: path)) := by
    have h0 : ¬ "blob".toList = [] := by decide
    simp only [Join, h0, if_false]
    congr 1
    simp [strings.Join, List.intercalate, Separator]
  rw [hj, Clean_of_clean _ hall]
  simp [Separator]

end filepath

theorem formatGitURL_github (org repo branch path : Str) (line : Int)
    (ho : strings.Contains org ".git".toList = false)
    (hr : strings.Contains repo ".git".toList = false) :
    formatGitURL ("git@github.com:".toList ++ org ++ "/".toList ++ repo ++ ".git".toList)
        branch path line
      = ("https://github.com/".toList ++ org ++ "/".toList ++ repo ++ "/".toList
          ++ filepath.Join ["blob".toList, branch, path]
          ++ (if line ≠ 0 then "#L".toList ++ strconv.FormatInt line else []), none) := by
  have ho2 : ¬ ".git".toList <:+: org := by
    rw [← strings.Contains_iff, ho]; simp
  have hr2 : ¬ ".git".toList <:+: repo := by
    rw [← strings.Contains_iff, hr]; simp
  have hc : strings.Contains
      ("git@github.com:".toList ++ org ++ "/".toList ++ repo ++ ".git".toList)
      "git@github.com:".toList = true := by
    rw [strings.Contains_iff]
    simp only [List.append_assoc]
    exact (List.prefix_append _ _).isInfix
  have r1 := strings.Replace_first
    ("git@github.com:".toList ++ org ++ "/".toList ++ repo ++ ".git".toList)
    "git@github.com".toList ":".toList "/".toList (org ++ "/".toList ++ repo ++ ".git".toList)
    (by simp) (by decide) (by decide)
  have r2 := strings.Replace_first
    ("git@github.com".toList ++ "/".toList ++ (org ++ "/".toList ++ repo ++ ".git".toList))
    [] "git@".toList "https://".toList
    ("github.com/".toList ++ (org ++ "/".toList ++ repo ++ ".git".toList))
    (by simp) (by decide) (by decide)
  have r3 := strings.Replace_first
    ([] ++ "https://".toList ++
      ("github.com/".toList ++ (org ++ "/".toList ++ repo ++ ".git".toList)))
    ("https://github.com/".toList ++ org ++ "/".toList ++ repo) ".git".toList
    ("/".toList ++ filepath.Join ["blob".toList, branch, path]) []
    (by simp) (by simp) (dotgit_absent org repo ho2 hr2)
  simp only [formatGitURL, hc, r1, r2, r3]
  by_cases hl : line = 0
  · simp [hl]
  · simp [hl]

/-- C16: for every `org` and `repo` that do not contain `.git` and every
`branch` and `path` that are non-empty clean relative paths (every segment a
plain name), `formatGitURL` on `git@github.com:{org}/{repo}.git` returns
`https://github.com/{org}/{repo}/blob/{branch}/{path}`, followed exactly when
the line is not `0` by `#L` and the decimal line (a minus sign when it is
negative, then the digits of its absolute value without leading zeros); for
instance `acme`, `widgets`, `feature/x`, `src/app.go` give
`https://github.com/acme/widgets/blob/feature/x/src/app.go#L42` for line `42`
and the same URL without `#L42` for line `0`. -/
theorem formatGitURL_clean (org repo branch path : Str) (line : Int)
    (ho : strings.Contains org ".git".toList = false)
    (hr : strings.Contains repo ".git".toList = false)
    (hb : IsCleanRel branch) (hp : IsCleanRel path) :
    (∃ ds, IsDecimal ds ∧ decimalValue ds = line.natAbs ∧
      (ds.head? = some '0' → ds = ['0']) ∧
      formatGitURL ("git@github.com:".toList ++ org ++ "/".toList ++ repo ++ ".git".toList)
          branch path line
        = ("https://github.com/".toList ++ org ++ "/".toList ++ repo ++ "/blob/".toList
            ++ branch ++ "/".toList ++ path
            ++ (if line = 0 then []
                else "#L".toList ++ (if line < 0 then '-' :: ds else ds)), none)) ∧
    formatGitURL "git@github.com:acme/widgets.git".toList "feature/x".toList
        "src/app.go".toList 42
      = ("https://github.com/acme/widgets/blob/feature/x/src/app.go#L42".toList, none) ∧
    formatGitURL "git@github.com:acme/widgets.git".toList "feature/x".toList
        "src/app.go".toList 0
      = ("https://github.com/acme/widgets/blob/feature/x/src/app.go".toList, none) ∧
    formatGitURL "git@github.com:acme/widgets.git".toList "feature/x".toList
        "src/app.go".toList (-5)
      = ("https://github.com/acme/widgets/blob/feature/x/src/app.go#L-5".toList, none) := by
  refine ⟨?_, by decide, by decide, by decide⟩
  obtain ⟨ds, h1, h2, h3, h4⟩ := FormatInt_spec line
  refine ⟨ds, h1, h2, h3, ?_⟩
  rw [← h4, formatGitURL_github org repo branch path line ho hr,
    filepath.Join_blob branch path hb hp]
  by_cases hl : line = 0
  · simp [hl]
  · simp [hl]

/-- C16 (witness): `corverroos`, `opengithub`, the branch `main`, the path
`cmd/main.go` and the line `91`. -/
theorem formatGitURL_clean_witness :
    (strings.Contains "corverroos".toList ".git".toList = false ∧
      strings.Contains "opengithub".toList ".git".toList = false ∧
      IsCleanRel "main".toList ∧ IsCleanRel "cmd/main.go".toList) ∧
    ((∃ ds, IsDecimal ds ∧ decimalValue ds = (91 : Int).natAbs ∧
      (ds.head? = some '0' → ds = ['0']) ∧
      formatGitURL ("git@github.com:".toList ++ "corverroos".toList ++ "/".toList
            ++ "opengithub".toList ++ ".git".toList) "main".toList "cmd/main.go".toList 91
        = ("https://github.com/".toList ++ "corverroos".toList ++ "/".toList
            ++ "opengithub".toList ++ "/blob/".toList
            ++ "main".toList ++ "/".toList ++ "cmd/main.go".toList
            ++ (if (91 : Int) = 0 then []
                else "#L".toList ++ (if (91 : Int) < 0 then '-' :: ds else ds)), none)) ∧
    formatGitURL "git@github.com:acme/widgets.git".toList "feature/x".toList
        "src/app.go".toList 42
      = ("https://github.com/acme/widgets/blob/feature/x/src/app.go#L42".toList, none) ∧
    formatGitURL "git@github.com:acme/widgets.git".toList "feature/x".toList
        "src/app.go".toList 0
      = ("https://github.com/acme/widgets/blob/feature/x/src/app.go".toList, none) ∧
    formatGitURL "git@github.com:acme/widgets.git".toList "feature/x".toList
        "src/app.go".toList (-5)
      = ("https://github.com/acme/widgets/blob/feature/x/src/app.go#L-5".toList, none)) :=
  ⟨by decide, formatGitURL_clean "corverroos".toList "opengithub".toList "main".toList
    "cmd/main.go".toList 91 (by decide) (by decide) (by decide) (by decide)⟩

/-! ## Cleaning a cleaned path again -/

namespace strings

theorem not_sep_of_mem_Split (s : Str) (sep : Char) (piece : Str)
    (hp : piece ∈ Split s sep) : sep ∉ piece := by
  induction s generalizing piece with
  | nil =>
    simp [Split] at hp
    subst hp
    simp
  | cons x xs ih =>
    simp only [Split] at hp
    split at hp
    · simp only [List.mem_cons] at hp
      rcases hp with rfl | hp
      · simp
      · exact ih piece hp
    · rename_i hx
      cases hs : Split xs sep with
      | nil => exact absurd hs (Split_ne_nil xs sep)
      | cons p rest =>
        rw [hs] at hp ih
        simp only [List.mem_cons] at hp
        rcases hp with rfl | hp
        · intro hmem
          simp only [List.mem_cons] at hmem
          rcases hmem with h | h
          · exact hx h.symm
          · exact ih p (by simp) h
        · exact ih piece (by simp [hp])

theorem Split_Join (xs : List Str) (sep : Char) (hne : xs ≠ [])
    (h : ∀ x ∈ xs, sep ∉ x) : Split (Join xs [sep]) sep = xs := by
  induction xs with
  | nil => exact absurd rfl hne
  | cons x rest ih =>
    cases rest with
    | nil =>
      rw [Join_singleton]
      exact Split_of_not_mem x sep (h x (by simp))
    | cons y ys =>
      rw [Join_cons_cons]
      have e : x ++ [sep] ++ Join (y :: ys) [sep] = x ++ sep :: Join (y :: ys) [sep] := by simp
      rw [e, Split_append_sep, Split_of_not_mem x sep (h x (by simp)),
        ih (by simp) (fun z hz => h z (List.mem_cons_of_mem _ hz))]
      rfl

end strings

namespace filepath

theorem cleanStep_inv (r : Bool) (st : List Str) (e : Str) (he : Separator ∉ e)
    (hgood : ∀ x ∈ st, x ≠ [] ∧ x ≠ ['.'] ∧ Separator ∉ x)
    (hstable : st.reverse.foldl (cleanStep r) [] = st) :
    (∀ x ∈ cleanStep r st e, x ≠ [] ∧ x ≠ ['.'] ∧ Separator ∉ x) ∧
      (cleanStep r st e).reverse.foldl (cleanStep r) [] = cleanStep r st e := by
  by_cases h1 : e = [] ∨ e = ['.']
  · simp only [cleanStep, h1, if_true]
    exact ⟨hgood, hstable⟩
  · have hne : e ≠ [] := fun h => h1 (Or.inl h)
    have hnd : e ≠ ['.'] := fun h => h1 (Or.inr h)
    by_cases h2 : e = ['.', '.']
    · subst h2
      cases st with
      | nil =>
        cases r with
        | true => simp [cleanStep]
        | false =>
          simp only [cleanStep]
          refine ⟨?_, ?_⟩
          · intro x hx
            simp at hx
            subst hx
            decide
          · decide
      | cons top below =>
        by_cases h3 : top = ['.', '.']
        · subst h3
          have hc : cleanStep r (['.', '.'] :: below) ['.', '.']
              = ['.', '.'] :: ['.', '.'] :: below := by
            simp [cleanStep]
          rw [hc]
          refine ⟨?_, ?_⟩
          · intro x hx
            rcases List.mem_cons.mp hx with rfl | hx
            · exact ⟨hne, hnd, he⟩
            · exact hgood x hx
          · rw [List.reverse_cons, List.foldl_append, hstable]
            simp [cleanStep]
        · have hc : cleanStep r (top :: below) ['.', '.'] = below := by
            simp [cleanStep, h3]
          rw [hc]
          refine ⟨fun x hx => hgood x (List.mem_cons_of_mem _ hx), ?_⟩
          have ht := hgood top (List.mem_cons_self _ _)
          rw [List.reverse_cons, List.foldl_append] at hstable
          simp only [List.foldl_cons, List.foldl_nil] at hstable
          have hpush : cleanStep r (below.reverse.foldl (cleanStep r) []) top
              = top :: below.reverse.foldl (cleanStep r) [] := by
            simp [cleanStep, ht.1, ht.2.1, h3]
          rw [hpush] at hstable
          exact (List.cons.inj hstable).2
    · have hc : cleanStep r st e = e :: st := by
        simp [cleanStep, hne, hnd, h2]
      rw [hc]
      refine ⟨?_, ?_⟩
      · intro x hx
        rcases List.mem_cons.mp hx with rfl | hx
        · exact ⟨hne, hnd, he⟩
        · exact hgood x hx
      · rw [List.reverse_cons, List.foldl_append, hstable]
        simp [cleanStep, hne, hnd, h2]

theorem foldl_cleanStep_inv (r : Bool) (xs st : List Str) (hxs : ∀ x ∈ xs, Separator ∉ x)
    (hgood : ∀ x ∈ st, x ≠ [] ∧ x ≠ ['.'] ∧ Separator ∉ x)
    (hstable : st.reverse.foldl (cleanStep r) [] = st) :
    (∀ x ∈ xs.foldl (cleanStep r) st, x ≠ [] ∧ x ≠ ['.'] ∧ Separator ∉ x) ∧
      (xs.foldl (cleanStep r) st).reverse.foldl (cleanStep r) [] = xs.foldl (cleanStep r) st := by
  induction xs generalizing st with
  | nil => exact ⟨hgood, hstable⟩
  | cons e rest ih =>
    obtain ⟨h1, h2⟩ := cleanStep_inv r st e (hxs e (by simp)) hgood hstable
    exact ih _ (fun x hx => hxs x (List.mem_cons_of_mem _ hx)) h1 h2

theorem Clean_eq (p : Str) (hp : p ≠ []) :
    Clean p =
      if p.head? = some Separator then
        Separator :: strings.Join
          ((strings.Split p Separator).foldl
            (cleanStep (decide (p.head? = some Separator))) []).reverse [Separator]
      else if strings.Join
          ((strings.Split p Separator).foldl
            (cleanStep (decide (p.head? = some Separator))) []).reverse [Separator] = []
        then ['.']
      else strings.Join
          ((strings.Split p Separator).foldl
            (cleanStep (decide (p.head? = some Separator))) []).reverse [Separator] := by
  simp only [Clean, hp, if_false, decide_eq_true_eq]

end filepath

namespace filepath

theorem Join_cons_ne_nil (x : Str) (rest : List Str) (sep : Str) (hx : x ≠ []) :
    strings.Join (x :: rest) sep ≠ [] ∧ (strings.Join (x :: rest) sep).head? = x.head? := by
  cases x with
  | nil => exact absurd rfl hx
  | cons c cs =>
    cases rest with
    | nil => rw [strings.Join_singleton]; exact ⟨by simp, rfl⟩
    | cons y ys => rw [strings.Join_cons_cons]; exact ⟨by simp, by simp⟩

theorem Clean_refold (d : Str) (hd : d ≠ []) :
    Clean d ≠ [] ∧
    ((Clean d).head? = some Separator ↔ d.head? = some Separator) ∧
    (strings.Split (Clean d) Separator).foldl
        (cleanStep (decide (d.head? = some Separator))) []
      = (strings.Split d Separator).foldl
        (cleanStep (decide (d.head? = some Separator))) [] := by
  obtain ⟨hgood, hstable⟩ := foldl_cleanStep_inv (decide (d.head? = some Separator))
    (strings.Split d Separator) []
    (fun x hx => strings.not_sep_of_mem_Split d Separator x hx)
    (fun x hx => absurd hx (List.not_mem_nil x)) rfl
  rw [Clean_eq d hd]
  generalize hst : (strings.Split d Separator).foldl
    (cleanStep (decide (d.head? = some Separator))) [] = st at hgood hstable ⊢
  by_cases hr : d.head? = some Separator
  · simp only [hr, if_true, decide_True]
    simp only [hr, decide_True] at hstable
    refine ⟨by simp, by simp, ?_⟩
    simp only [strings.Split, if_true, List.foldl_cons]
    have h0 : cleanStep true [] [] = [] := by simp [cleanStep]
    rw [h0]
    cases hk : st.reverse with
    | nil =>
      have : st = [] := by simpa using hk
      subst this
      simp [strings.Join, List.intercalate, strings.Split, cleanStep]
    | cons k ks =>
      rw [strings.Split_Join (k :: ks) Separator (by simp)
        (fun x hx => (hgood x (by rw [← List.mem_reverse, hk]; exact hx)).2.2)]
      rw [← hk]
      exact hstable
  · simp only [hr, if_false, decide_False]
    simp only [hr, decide_False] at hstable
    cases hk : st.reverse with
    | nil =>
      have : st = [] := by simpa using hk
      subst this
      simp [strings.Join, List.intercalate, strings.Split, cleanStep, Separator]
    | cons k ks =>
      have hkg := hgood k (by rw [← List.mem_reverse, hk]; simp)
      obtain ⟨hj1, hj2⟩ := Join_cons_ne_nil k ks [Separator] hkg.1
      simp only [hj1, if_false]
      refine ⟨hj1, ?_, ?_⟩
      · rw [hj2]
        constructor
        · intro hh
          exfalso
          cases k with
          | nil => exact hkg.1 rfl
          | cons c cs =>
            simp at hh
            exact hkg.2.2 (by simp [hh])
        · intro hh
          exact hh.elim
      · rw [strings.Split_Join (k :: ks) Separator (by simp)
          (fun x hx => (hgood x (by rw [← List.mem_reverse, hk]; exact hx)).2.2)]
        rw [← hk]
        exact hstable

theorem Clean_Clean_append (d y : Str) (hd : d ≠ []) :
    Clean (Clean d ++ Separator :: y) = Clean (d ++ Separator :: y) := by
  obtain ⟨h1, h2, h3⟩ := Clean_refold d hd
  have hne1 : Clean d ++ Separator :: y ≠ [] := by simp
  have hne2 : d ++ Separator :: y ≠ [] := by simp
  have hh1 : (Clean d ++ Separator :: y).head? = (Clean d).head? := by
    cases hc : Clean d with
    | nil => exact absurd hc h1
    | cons c cs => rfl
  have hh2 : (d ++ Separator :: y).head? = d.head? := by
    cases d with
    | nil => exact absurd rfl hd
    | cons c cs => rfl
  have hdec : decide ((Clean d).head? = some Separator) = decide (d.head? = some Separator) := by
    by_cases hr : d.head? = some Separator
    · simp [hr, h2.mpr hr]
    · have : ¬ (Clean d).head? = some Separator := fun h => hr (h2.mp h)
      simp [hr, this]
  rw [Clean_eq _ hne1, Clean_eq _ hne2, hh1, hh2, strings.Split_append_sep,
    strings.Split_append_sep, List.foldl_append, List.foldl_append, hdec, h3]
  by_cases hr : d.head? = some Separator
  · simp only [hr, h2.mpr hr, if_true]
  · have : ¬ (Clean d).head? = some Separator := fun h => hr (h2.mp h)
    simp only [hr, this, if_false]

end filepath

/-! ## `findFile` without glob metacharacters -/

theorem hasMeta_Join (d s : Str) (hd : filepath.hasMeta d = false)
    (hs : filepath.hasMeta s = false) : filepath.hasMeta (filepath.Join [d, s]) = false := by
  cases h : filepath.hasMeta (filepath.Join [d, s]) with
  | false => rfl
  | true =>
    exfalso
    simp only [filepath.hasMeta, List.any_eq_true] at h
    obtain ⟨c, hc, hm⟩ := h
    have hd2 : ∀ x ∈ d, ¬ (decide (x = '*' ∨ x = '?' ∨ x = '[' ∨ x = Char.ofNat 92) = true) := by
      simpa [filepath.hasMeta] using hd
    have hs2 : ∀ x ∈ s, ¬ (decide (x = '*' ∨ x = '?' ∨ x = '[' ∨ x = Char.ofNat 92) = true) := by
      simpa [filepath.hasMeta] using hs
    rcases filepath.mem_joined_path _ _ hc with ⟨e, he, hce⟩ | rfl | rfl
    · simp only [List.mem_cons, List.mem_singleton, List.not_mem_nil, or_false] at he
      rcases he with rfl | rfl
      · exact hd2 c hce hm
      · exact hs2 c hce hm
    · revert hm; decide
    · revert hm; decide

theorem mkFS_metaFree (files : List Str) (dirs : List (Str × ReadDirResult))
    (globs : List (Str × List Str))
    (h : ∀ pr ∈ dirs, ∀ n ∈ listedDirs pr.2, filepath.hasMeta n = false) :
    MetaFree (mkFS files dirs globs) := by
  intro dir es e hread he hd
  have hmem : ∃ pr ∈ dirs, pr.2 = .entries es := by
    simp only [mkFS] at hread
    clear h
    induction dirs with
    | nil => simp [List.lookup] at hread
    | cons pr rest ih =>
      obtain ⟨k, v⟩ := pr
      simp only [List.lookup] at hread
      split at hread
      · simp only [Option.getD_some] at hread
        exact ⟨(k, v), by simp, hread⟩
      · obtain ⟨pr, hpr, h2⟩ := ih hread
        exact ⟨pr, List.mem_cons_of_mem _ hpr, h2⟩
  obtain ⟨pr, hpr, h2⟩ := hmem
  apply h pr hpr
  rw [h2]
  simp only [listedDirs, List.mem_map, List.mem_filter]
  exact ⟨e, ⟨he, hd⟩, rfl⟩

theorem findFileEntries_success_inv (search : Str → Option (Run (Str × Bool × Option Err)))
    (root : Str) (es : List DirEntry) (p : Str)
    (h : findFileEntries search root es = some (.ret (p, true, none))) :
    ∃ e ∈ es, e.isDir = true ∧
      search (filepath.Join [root, e.name]) = some (.ret (p, true, none)) := by
  induction es with
  | nil => simp [findFileEntries] at h
  | cons e rest ih =>
    simp only [findFileEntries] at h
    cases hd : e.isDir with
    | false =>
      simp only [hd, Bool.not_false, if_true] at h
      obtain ⟨x, hx, h2⟩ := ih h
      exact ⟨x, List.mem_cons_of_mem _ hx, h2⟩
    | true =>
      simp only [hd, Bool.not_true, Bool.false_eq_true, if_false] at h
      cases hs : search (filepath.Join [root, e.name]) with
      | none => simp [hs] at h
      | some r =>
        rw [hs] at h
        cases r with
        | panic => simp at h
        | ret res =>
          obtain ⟨found, ok, err⟩ := res
          cases err with
          | some er => simp at h
          | none =>
            cases ok with
            | true =>
              simp at h
              subst h
              exact ⟨e, List.mem_cons_self _ _, hd, hs⟩
            | false =>
              simp only [Bool.false_eq_true, if_false] at h
              obtain ⟨x, hx, h2⟩ := ih h
              exact ⟨x, List.mem_cons_of_mem _ hx, h2⟩

theorem findFileEntries_error_inv (search : Str → Option (Run (Str × Bool × Option Err)))
    (root : Str) (es : List DirEntry) (out : Str) (ok : Bool) (er : Err)
    (h : findFileEntries search root es = some (.ret (out, ok, some er))) :
    ∃ e ∈ es, e.isDir = true ∧ ∃ o k,
      search (filepath.Join [root, e.name]) = some (.ret (o, k, some er)) := by
  induction es with
  | nil => simp [findFileEntries] at h
  | cons e rest ih =>
    simp only [findFileEntries] at h
    cases hd : e.isDir with
    | false =>
      simp only [hd, Bool.not_false, if_true] at h
      obtain ⟨x, hx, h2⟩ := ih h
      exact ⟨x, List.mem_cons_of_mem _ hx, h2⟩
    | true =>
      simp only [hd, Bool.not_true, Bool.false_eq_true, if_false] at h
      cases hs : search (filepath.Join [root, e.name]) with
      | none => simp [hs] at h
      | some r =>
        rw [hs] at h
        cases r with
        | panic => simp at h
        | ret res =>
          obtain ⟨found, k, err⟩ := res
          cases err with
          | some e2 =>
            simp at h
            obtain ⟨_, _, rfl⟩ := h
            exact ⟨e, List.mem_cons_self _ _, hd, found, k, hs⟩
          | none =>
            cases k with
            | true => simp at h
            | false =>
              simp only [Bool.false_eq_true, if_false] at h
              obtain ⟨x, hx, h2⟩ := ih h
              exact ⟨x, List.mem_cons_of_mem _ hx, h2⟩

theorem Glob_at_most_one (fs : FS) (d s : Str) (hd : filepath.hasMeta d = false)
    (hs : filepath.hasMeta s = false) :
    (fs.lstat (filepath.Join [d, s]) = true ∧
        filepath.Glob fs (filepath.Join [d, s]) = .ok [filepath.Join [d, s]]) ∨
      (fs.lstat (filepath.Join [d, s]) = false ∧
        filepath.Glob fs (filepath.Join [d, s]) = .ok []) := by
  have hg := Glob_of_no_meta fs _ (hasMeta_Join d s hd hs)
  cases hl : fs.lstat (filepath.Join [d, s]) with
  | true => left; rw [hg, hl]; exact ⟨rfl, rfl⟩
  | false => right; rw [hg, hl]; exact ⟨rfl, by simp⟩

theorem findFile_trail (fs : FS) (hfs : MetaFree fs) (fuel : Nat) (root : Str)
    (segs : List Str) (p : Str) (hroot : filepath.hasMeta root = false)
    (hsegs : ∀ s ∈ segs, filepath.hasMeta s = false)
    (h : findFile fs fuel root segs = some (.ret (p, true, none))) :
    ∃ names, Trail fs root segs names ∧ p = joinAll root names := by
  induction fuel generalizing root segs with
  | zero => simp [findFile] at h
  | succ n ih =>
    cases segs with
    | nil => simp [findFile] at h
    | cons s rem =>
      have hs : filepath.hasMeta s = false := hsegs s (by simp)
      have hrem : ∀ x ∈ rem, filepath.hasMeta x = false := fun x hx => hsegs x (by simp [hx])
      rcases Glob_at_most_one fs root s hroot hs with ⟨hl, hg⟩ | ⟨hl, hg⟩
      · by_cases hr : rem = []
        · subst hr
          rw [findFile_of_glob_last fs n root s _ hg] at h
          simp at h
          subst h
          exact ⟨[s], Trail.last root s hl, rfl⟩
        · rw [findFile_of_glob_one fs n root s _ rem hg hr] at h
          obtain ⟨names, ht, hp⟩ := ih _ _ (hasMeta_Join root s hroot hs) hrem h
          exact ⟨s :: names, Trail.segment root s rem names hl hr ht, hp⟩
      · cases hread : fs.readDir root with
        | permission =>
          rw [findFile_of_denied fs n root s rem hg hread] at h
          simp at h
        | failed e =>
          simp [findFile, hg, hread] at h
        | entries es =>
          rw [findFile_of_entries fs n root s rem es hg hread] at h
          obtain ⟨e, he, hd, hsub⟩ := findFileEntries_success_inv _ _ _ _ h
          have hname := hfs root es e hread he hd
          obtain ⟨names, ht, hp⟩ := ih _ _ (hasMeta_Join root e.name hroot hname) hsegs hsub
          exact ⟨e.name :: names, Trail.directory root es e _ names hread he hd ht, hp⟩

theorem Trail_facts (fs : FS) (root : Str) (segs names : List Str)
    (h : Trail fs root segs names) :
    segs.Sublist names ∧ fs.lstat (joinAll root names) = true ∧
      ∃ dirs final, names = dirs ++ [final] ∧ segs.getLast? = some final := by
  induction h with
  | last root s hl => exact ⟨List.Sublist.refl _, hl, [], s, rfl, rfl⟩
  | segment root s rest names hl hne _ ih =>
    obtain ⟨h1, h2, dirs, final, h3, h4⟩ := ih
    refine ⟨h1.cons₂ s, h2, s :: dirs, final, by simp [h3], ?_⟩
    cases rest with
    | nil => exact absurd rfl hne
    | cons r rs => simpa [List.getLast?_cons_cons] using h4
  | directory root es e segs names _ _ _ _ ih =>
    obtain ⟨h1, h2, dirs, final, h3, h4⟩ := ih
    exact ⟨h1.cons _, h2, e.name :: dirs, final, by simp [h3], h4⟩

theorem joinAll_concat (root : Str) (dirs : List Str) (final : Str) :
    joinAll root (dirs ++ [final]) = filepath.Join [joinAll root dirs, final] := by
  simp [joinAll, List.foldl_append]

namespace filepath

theorem Join_of_head (x : Str) (rest : List Str) (hx : x ≠ []) :
    Join (x :: rest) = Clean (strings.Join (x :: rest) [Separator]) := by
  simp [Join, hx]

theorem Join_Join_concat (x : Str) (rest : List Str) (f : Str) (hx : x ≠ []) :
    Join [Join (x :: rest), f] = Join (x :: rest ++ [f]) := by
  have hj := Join_cons_ne_nil x rest [Separator] hx
  have hc := Clean_refold (strings.Join (x :: rest) [Separator]) hj.1
  rw [Join_of_head x rest hx, Join_of_head _ [f] hc.1]
  have e1 : x :: rest ++ [f] = x :: (rest ++ [f]) := rfl
  rw [e1, Join_of_head x (rest ++ [f]) hx]
  have e2 : strings.Join (x :: (rest ++ [f])) [Separator]
      = strings.Join (x :: rest) [Separator] ++ Separator :: f := by
    have := strings_Join_concat (x :: rest) f [Separator] (by simp)
    simp only [List.cons_append] at this
    rw [this]
    simp
  rw [e2, strings.Join_cons_cons, strings.Join_singleton]
  have e3 : Clean (strings.Join (x :: rest) [Separator]) ++ [Separator] ++ f
      = Clean (strings.Join (x :: rest) [Separator]) ++ Separator :: f := by simp
  rw [e3, Clean_Clean_append _ f hj.1]

theorem Split_Clean_names (path : Str) (xs names : List Str) (hpath : path ≠ [])
    (hs : strings.Split path Separator = xs ++ names) (hne : names ≠ [])
    (hn : ∀ n ∈ names, IsName n) :
    names <:+ strings.Split (Clean path) Separator := by
  have hkept : ((strings.Split path Separator).foldl
      (cleanStep (path.head? = some Separator)) []).reverse
      = (xs.foldl (cleanStep (path.head? = some Separator)) []).reverse ++ names := by
    rw [hs, List.foldl_append, foldl_cleanStep_names _ names _ hn]
    simp
  have hfree : ∀ x ∈ (xs.foldl (cleanStep (path.head? = some Separator)) []).reverse ++ names,
      Separator ∉ x := by
    intro x hx
    rcases List.mem_append.mp hx with hx | hx
    · rw [List.mem_reverse] at hx
      rcases mem_foldl_cleanStep _ _ _ _ hx with h | h
      · simp at h
      · exact strings.not_sep_of_mem_Split path Separator x (by rw [hs]; simp [h])
    · exact (hn x hx).2.1
  have hkne : (xs.foldl (cleanStep (path.head? = some Separator)) []).reverse ++ names ≠ [] := by
    simp [hne]
  have hsplit := strings.Split_Join _ Separator hkne hfree
  have hbody : strings.Join
      ((xs.foldl (cleanStep (path.head? = some Separator)) []).reverse ++ names)
      [Separator] ≠ [] := by
    obtain ⟨init, l, rfl⟩ : ∃ init l, names = init ++ [l] :=
      ⟨names.dropLast, names.getLast hne, (List.dropLast_append_getLast hne).symm⟩
    rw [← List.append_assoc]
    exact (Split_body_last _ l (hn l (by simp))).2
  simp only [Clean, hpath, if_false, hkept]
  split
  · have : strings.Split (Separator :: strings.Join
        ((xs.foldl (cleanStep (path.head? = some Separator)) []).reverse ++ names)
        [Separator]) Separator
        = [] :: ((xs.foldl (cleanStep (path.head? = some Separator)) []).reverse ++ names) := by
      simp [strings.Split, hsplit]
    rw [this]
    exact ⟨[] :: (xs.foldl (cleanStep (path.head? = some Separator)) []).reverse, by simp⟩
  · rw [hsplit]
    exact ⟨_, rfl⟩

theorem Split_Join_names (root : Str) (names : List Str) (hne : names ≠ [])
    (hn : ∀ n ∈ names, IsName n) :
    names <:+ strings.Split (Join (root :: names)) Separator := by
  have hfree : ∀ x ∈ names, Separator ∉ x := fun x hx => (hn x hx).2.1
  cases names with
  | nil => exact absurd rfl hne
  | cons n rest =>
    have hn0 : n ≠ [] := (hn n (by simp)).1
    by_cases hroot : root = []
    · subst hroot
      have e : Join ([] :: n :: rest) = Clean (strings.Join (n :: rest) [Separator]) := by
        simp [Join, hn0]
      rw [e]
      exact Split_Clean_names _ [] (n :: rest)
        (Join_cons_ne_nil n rest [Separator] hn0).1
        (by simpa using strings.Split_Join (n :: rest) Separator (by simp) hfree) (by simp) hn
    · have e : Join (root :: n :: rest) = Clean (strings.Join (root :: n :: rest) [Separator]) := by
        simp [Join, hroot]
      rw [e]
      refine Split_Clean_names _ (strings.Split root Separator) (n :: rest)
        (Join_cons_ne_nil root _ [Separator] hroot).1 ?_ (by simp) hn
      rw [strings.Join_cons_cons]
      have : root ++ [Separator] ++ strings.Join (n :: rest) [Separator]
          = root ++ Separator :: strings.Join (n :: rest) [Separator] := by simp
      rw [this, strings.Split_append_sep, strings.Split_Join (n :: rest) Separator (by simp) hfree]

end filepath

theorem joinAll_eq_Join (root : Str) (names : List Str) (hne : names ≠ [])
    (h : ∀ n ∈ names, n ≠ []) : joinAll root names = filepath.Join (root :: names) := by
  induction names using List.reverseRecOn with
  | nil => exact absurd rfl hne
  | append_singleton ns f ih =>
    by_cases hns : ns = []
    · subst hns
      rfl
    · rw [joinAll_concat, ih hns (fun n hn => h n (by simp [hn]))]
      by_cases hroot : root = []
      · subst hroot
        cases ns with
        | nil => exact absurd rfl hns
        | cons n rest =>
          have hn : n ≠ [] := h n (by simp)
          have e1 : filepath.Join ([] :: n :: rest) = filepath.Join (n :: rest) := by
            simp [filepath.Join]
          have e2 : filepath.Join ([] :: (n :: rest ++ [f])) = filepath.Join (n :: rest ++ [f]) := by
            simp [filepath.Join]
          rw [e1, e2]
          exact filepath.Join_Join_concat n rest f hn
      · exact filepath.Join_Join_concat root ns f hroot

theorem Trail_names (fs : FS) (root : Str) (segs names : List Str)
    (h : Trail fs root segs names) :
    ∀ n ∈ names, n ∈ segs ∨
      ∃ dir es e, fs.readDir dir = .entries es ∧ e ∈ es ∧ e.isDir = true ∧ n = e.name := by
  induction h with
  | last root s _ => intro n hn; exact Or.inl hn
  | segment root s rest names _ _ _ ih =>
    intro n hn
    rcases List.mem_cons.mp hn with rfl | hn
    · exact Or.inl (by simp)
    · rcases ih n hn with h1 | h1
      · exact Or.inl (List.mem_cons_of_mem _ h1)
      · exact Or.inr h1
  | directory root es e segs names hr he hd _ ih =>
    intro n hn
    rcases List.mem_cons.mp hn with rfl | hn
    · exact Or.inr ⟨root, es, e, hr, he, hd, rfl⟩
    · exact ih n hn

/-- C17 (amended): on a file system whose directory names, root and segments
have no glob metacharacter, a path returned by a successful `findFile` exists
and is obtained from `root` by joining components one at a time, each the next
requested segment (which exists where it is joined) or the name of a listed
subdirectory; so the requested segments are among the components in order,
possibly with subdirectories between them, and the path is
`filepath.Join(d, sn)` for the last requested segment `sn` and a directory `d`
so reached. When moreover every segment and every listed directory has a
plain name, every component is a plain name, the path is
`filepath.Join(root, components...)`, so it lies in the subtree of `root`, and
the components are its trailing segments. -/
theorem findFile_sound (fs : FS) (fuel : Nat) (root : Str) (segs : List Str) (p : Str)
    (hfs : MetaFree fs) (hroot : filepath.hasMeta root = false)
    (hsegs : ∀ s ∈ segs, filepath.hasMeta s = false)
    (h : findFile fs fuel root segs = some (.ret (p, true, none))) :
    ∃ names, Trail fs root segs names ∧ p = joinAll root names ∧ segs.Sublist names ∧
      fs.lstat p = true ∧
      (∃ dirs final, names = dirs ++ [final] ∧ segs.getLast? = some final ∧
        p = filepath.Join [joinAll root dirs, final]) ∧
      ((∀ s ∈ segs, IsName s) → PlainDirs fs →
        (∀ n ∈ names, IsName n) ∧ p = filepath.Join (root :: names) ∧
          names <:+ strings.Split p filepath.Separator) := by
  obtain ⟨names, ht, hp⟩ := findFile_trail fs hfs fuel root segs p hroot hsegs h
  obtain ⟨h1, h2, dirs, final, h3, h4⟩ := Trail_facts fs root segs names ht
  refine ⟨names, ht, hp, h1, by rw [hp]; exact h2, ⟨dirs, final, h3, h4, ?_⟩, ?_⟩
  · rw [hp, h3, joinAll_concat]
  · intro hnames hplain
    have hall : ∀ n ∈ names, IsName n := by
      intro n hn
      rcases Trail_names fs root segs names ht n hn with h5 | ⟨dir, es, e, hr, he, hd, rfl⟩
      · exact hnames n h5
      · exact hplain dir es e hr he hd
    have hne : names ≠ [] := by rw [h3]; simp
    have hj := joinAll_eq_Join root names hne (fun n hn => (hall n hn).1)
    refine ⟨hall, by rw [hp]; exact hj, ?_⟩
    rw [hp, hj]
    exact filepath.Split_Join_names root names hne hall

theorem findFile_error_kind (fs : FS) (hfs : MetaFree fs) (fuel : Nat) (root : Str)
    (segs : List Str) (out : Str) (ok : Bool) (er : Err)
    (hroot : filepath.hasMeta root = false)
    (hsegs : ∀ s ∈ segs, filepath.hasMeta s = false)
    (h : findFile fs fuel root segs = some (.ret (out, ok, some er))) :
    ∃ d cause, er = .readDirFailed d cause := by
  induction fuel generalizing root segs out ok with
  | zero => simp [findFile] at h
  | succ n ih =>
    cases segs with
    | nil => simp [findFile] at h
    | cons s rem =>
      have hs : filepath.hasMeta s = false := hsegs s (by simp)
      have hrem : ∀ x ∈ rem, filepath.hasMeta x = false := fun x hx => hsegs x (by simp [hx])
      rcases Glob_at_most_one fs root s hroot hs with ⟨hl, hg⟩ | ⟨hl, hg⟩
      · by_cases hr : rem = []
        · subst hr
          rw [findFile_of_glob_last fs n root s _ hg] at h
          simp at h
        · rw [findFile_of_glob_one fs n root s _ rem hg hr] at h
          exact ih _ _ _ _ (hasMeta_Join root s hroot hs) hrem h
      · cases hread : fs.readDir root with
        | permission =>
          rw [findFile_of_denied fs n root s rem hg hread] at h
          simp at h
        | failed e =>
          simp [findFile, hg, hread] at h
          exact ⟨root, e, h.2.2.symm⟩
        | entries es =>
          rw [findFile_of_entries fs n root s rem es hg hread] at h
          obtain ⟨e, he, hd, o, k, hsub⟩ := findFileEntries_error_inv _ _ _ _ _ _ h
          have hname := hfs root es e hread he hd
          exact ih _ _ _ _ (hasMeta_Join root e.name hroot hname) hsegs hsub

theorem fsDeep_metaFree : MetaFree fsDeep :=
  mkFS_metaFree _ _ _ (by decide)

theorem fsSiblings_metaFree : MetaFree fsSiblings :=
  mkFS_metaFree _ _ _ (by decide)

theorem mkFS_plainDirs (files : List Str) (dirs : List (Str × ReadDirResult))
    (globs : List (Str × List Str))
    (h : ∀ pr ∈ dirs, ∀ n ∈ listedDirs pr.2, IsName n) :
    PlainDirs (mkFS files dirs globs) := by
  intro dir es e hread he hd
  have hmem : ∃ pr ∈ dirs, pr.2 = .entries es := by
    simp only [mkFS] at hread
    clear h
    induction dirs with
    | nil => simp [List.lookup] at hread
    | cons pr rest ih =>
      obtain ⟨k, v⟩ := pr
      simp only [List.lookup] at hread
      split at hread
      · simp only [Option.getD_some] at hread
        exact ⟨(k, v), by simp, hread⟩
      · obtain ⟨pr, hpr, h2⟩ := ih hread
        exact ⟨pr, List.mem_cons_of_mem _ hpr, h2⟩
  obtain ⟨pr, hpr, h2⟩ := hmem
  apply h pr hpr
  rw [h2]
  simp only [listedDirs, List.mem_map, List.mem_filter]
  exact ⟨e, ⟨he, hd⟩, rfl⟩

theorem fsDeep_plainDirs : PlainDirs fsDeep :=
  mkFS_plainDirs _ _ _ (by decide)

theorem fsParent_metaFree : MetaFree fsParent :=
  mkFS_metaFree _ _ _ (by decide)

/-- C17 (witness): in the tree `/r/a/x/b` the search of `/r` for `a`, `b`
returns `/r/a/x/b`, which is reached by plain components that contain `a`
and `b` in order and end with `b`. -/
theorem findFile_sound_witness :
    (MetaFree fsDeep ∧ filepath.hasMeta "/r".toList = false ∧
      (∀ s ∈ ["a".toList, "b".toList], filepath.hasMeta s = false) ∧
      findFile fsDeep 5 "/r".toList ["a".toList, "b".toList]
        = some (.ret ("/r/a/x/b".toList, true, none)) ∧
      (∀ s ∈ ["a".toList, "b".toList], IsName s) ∧ PlainDirs fsDeep) ∧
    ∃ names, Trail fsDeep "/r".toList ["a".toList, "b".toList] names ∧
      "/r/a/x/b".toList = joinAll "/r".toList names ∧
      ["a".toList, "b".toList].Sublist names ∧ fsDeep.lstat "/r/a/x/b".toList = true ∧
      (∃ dirs final, names = dirs ++ [final] ∧
        ["a".toList, "b".toList].getLast? = some final ∧
        "/r/a/x/b".toList = filepath.Join [joinAll "/r".toList dirs, final]) ∧
      (∀ n ∈ names, IsName n) ∧ "/r/a/x/b".toList = filepath.Join ("/r".toList :: names) ∧
      names <:+ strings.Split "/r/a/x/b".toList filepath.Separator := by
  refine ⟨⟨fsDeep_metaFree, by decide, by decide, by decide, by decide, fsDeep_plainDirs⟩, ?_⟩
  obtain ⟨names, h1, h2, h3, h4, h5, h6⟩ :=
    findFile_sound fsDeep 5 "/r".toList ["a".toList, "b".toList] "/r/a/x/b".toList
      fsDeep_metaFree (by decide) (by decide) (by decide)
  exact ⟨names, h1, h2, h3, h4, h5, h6 (by decide) fsDeep_plainDirs⟩

/-- C17 (counterexample): in the tree `/r/a/x/b`, without any glob
metacharacter, the search of `/r` for `a`, `b` succeeds with `/r/a/x/b`: the
path is not `filepath.Join(d, "a", "b")` for any directory `d` of the tree, and
its trailing segments are `x`, `b`, not `a`, `b`. And in the tree with
`/r/foo.go` and `/r/sub`, the search of `/r/sub` for `..`, `foo.go` succeeds
with `/r/foo.go`, a path outside the subtree of `/r/sub`. -/
theorem findFile_between_segments :
    MetaFree fsDeep ∧ filepath.hasMeta "/r".toList = false ∧
    (∀ s ∈ ["a".toList, "b".toList], filepath.hasMeta s = false) ∧
    findFile fsDeep 5 "/r".toList ["a".toList, "b".toList]
      = some (.ret ("/r/a/x/b".toList, true, none)) ∧
    (∀ d ∈ ["/r".toList, "/r/a".toList, "/r/a/x".toList],
      filepath.Join [d, "a".toList, "b".toList] ≠ "/r/a/x/b".toList) ∧
    (strings.Split "/r/a/x/b".toList filepath.Separator).drop 3
      ≠ ["a".toList, "b".toList] ∧
    MetaFree fsParent ∧ filepath.hasMeta "/r/sub".toList = false ∧
    (∀ s ∈ ["..".toList, "foo.go".toList], filepath.hasMeta s = false) ∧
    findFile fsParent 5 "/r/sub".toList ["..".toList, "foo.go".toList]
      = some (.ret ("/r/foo.go".toList, true, none)) ∧
    ¬ ("/r/sub".toList <+: "/r/foo.go".toList) :=
  ⟨fsDeep_metaFree, by decide, by decide, by decide, by decide, by decide,
    fsParent_metaFree, by decide, by decide, by decide, by decide⟩

/-- C19 (amended): when the root, the segments and the names of the listed
directories contain no glob metacharacter, the glob of a segment under such a
directory yields at most one entry and `findFile` never fails with the
"multiple matches" error; in particular, when the requested name does not
exist directly under `root`, two subdirectories `a` and `b` of `root` each
contain it, and no directory is listed before `a`, `findFile` succeeds and
returns the entry in `a`. -/
theorem findFile_at_most_one_match (fs : FS) (root : Str) (segs : List Str)
    (hfs : MetaFree fs) (hroot : filepath.hasMeta root = false)
    (hsegs : ∀ s ∈ segs, filepath.hasMeta s = false) :
    (∀ dir s, filepath.hasMeta dir = false → s ∈ segs →
      ∃ found, filepath.Glob fs (filepath.Join [dir, s]) = .ok found ∧ found.length ≤ 1) ∧
    (∀ fuel out ok er found, findFile fs fuel root segs = some (.ret (out, ok, some er)) →
      er ≠ .multipleMatches found) ∧
    (∀ fuel f before a mid b after, segs = [f] →
      fs.readDir root = .entries (before ++ a :: (mid ++ b :: after)) →
      (∀ x ∈ before, x.isDir = false) → a.isDir = true → b.isDir = true →
      fs.lstat (filepath.Join [root, f]) = false →
      fs.lstat (filepath.Join [filepath.Join [root, a.name], f]) = true →
      fs.lstat (filepath.Join [filepath.Join [root, b.name], f]) = true →
      findFile fs (fuel + 2) root segs
        = some (.ret (filepath.Join [filepath.Join [root, a.name], f], true, none))) := by
  refine ⟨?_, ?_, ?_⟩
  · intro dir s hd hs
    rcases Glob_at_most_one fs dir s hd (hsegs s hs) with ⟨_, hg⟩ | ⟨_, hg⟩
    · exact ⟨_, hg, by simp⟩
    · exact ⟨_, hg, by simp⟩
  · intro fuel out ok er found h
    obtain ⟨d, cause, rfl⟩ := findFile_error_kind fs hfs fuel root segs out ok er hroot hsegs h
    simp
  · intro fuel f before a mid b after hseg hread hbefore ha _ hl hla _
    subst hseg
    have hf : filepath.hasMeta f = false := hsegs f (by simp)
    have hname := hfs root _ a hread (by simp) ha
    have hg0 : filepath.Glob fs (filepath.Join [root, f]) = .ok [] := by
      rcases Glob_at_most_one fs root f hroot hf with ⟨h1, _⟩ | ⟨_, hg⟩
      · rw [hl] at h1; cases h1
      · exact hg
    have hga : filepath.Glob fs (filepath.Join [filepath.Join [root, a.name], f])
        = .ok [filepath.Join [filepath.Join [root, a.name], f]] := by
      rcases Glob_at_most_one fs _ f (hasMeta_Join root a.name hroot hname) hf
        with ⟨_, hg⟩ | ⟨h1, _⟩
      · exact hg
      · rw [hla] at h1; cases h1
    rw [findFile_of_entries fs (fuel + 1) root f [] _ hg0 hread]
    apply findFileEntries_found _ _ _ _ _ _ ha
    · intro x hx hxd
      rw [hbefore x hx] at hxd
      cases hxd
    · exact findFile_of_glob_last fs fuel _ f _ hga

/-- C19 (witness): in the tree with `/r/a/foo.go` and `/r/b/foo.go` the search
of `/r` for `foo.go` returns the file in `a`. -/
theorem findFile_at_most_one_match_witness :
    (MetaFree fsSiblings ∧ filepath.hasMeta "/r".toList = false ∧
      (∀ s ∈ ["foo.go".toList], filepath.hasMeta s = false)) ∧
    findFile fsSiblings 2 "/r".toList ["foo.go".toList]
      = some (.ret (filepath.Join [filepath.Join ["/r".toList, "a".toList], "foo.go".toList],
          true, none)) :=
  ⟨⟨fsSiblings_metaFree, by decide, by decide⟩,
    (findFile_at_most_one_match fsSiblings "/r".toList ["foo.go".toList] fsSiblings_metaFree
      (by decide) (by decide)).2.2 0 "foo.go".toList [] ⟨"a".toList, true⟩ []
      ⟨"b".toList, true⟩ [] rfl (by decide) (by decide) rfl rfl (by decide) (by decide)
      (by decide)⟩

/-- C19 (counterexample): the root `/r` and the segment `foo.go` have no glob
metacharacter, but the directory `/r/a*` has one: the glob of `foo.go` under it
matches `/r/ab/foo.go` and `/r/ac/foo.go`, and `findFile` fails with the
"multiple matches" error. -/
theorem findFile_star_directory :
    filepath.hasMeta "/r".toList = false ∧
    (∀ s ∈ ["foo.go".toList], filepath.hasMeta s = false) ∧
    filepath.Glob fsStarDir
        (filepath.Join [filepath.Join ["/r".toList, "a*".toList], "foo.go".toList])
      = .ok ["/r/ab/foo.go".toList, "/r/ac/foo.go".toList] ∧
    findFile fsStarDir 5 "/r".toList ["foo.go".toList]
      = some (.ret ([], false,
          some (.multipleMatches ["/r/ab/foo.go".toList, "/r/ac/foo.go".toList]))) :=
  ⟨by decide, by decide, by decide, by decide⟩

/-! ## `findAbsPath` on a path whose segments resolve -/

theorem findFile_resolves (fs : FS) (segs : List Str) :
    ∀ (fuel : Nat) (d : Str), segs ≠ [] → filepath.hasMeta d = false →
      (∀ s ∈ segs, filepath.hasMeta s = false) → resolves fs d segs = true →
      segs.length ≤ fuel →
      findFile fs fuel d segs = some (.ret (joinAll d segs, true, none)) ∧
        fs.lstat (joinAll d segs) = true := by
  induction segs with
  | nil => intro _ _ h; exact absurd rfl h
  | cons s rest ih =>
    intro fuel d _ hd hm hr hfuel
    simp only [resolves, Bool.and_eq_true] at hr
    obtain ⟨hl, hr⟩ := hr
    have hms := hasMeta_Join d s hd (hm s (List.mem_cons_self _ _))
    have hg : filepath.Glob fs (filepath.Join [d, s]) = .ok [filepath.Join [d, s]] := by
      rw [Glob_of_no_meta fs _ hms, hl]
      rfl
    cases fuel with
    | zero => simp at hfuel
    | succ k =>
      cases rest with
      | nil => exact ⟨findFile_of_glob_last fs k d s _ hg, hl⟩
      | cons r rest =>
        rw [findFile_of_glob_one fs k d s _ (r :: rest) hg (by simp)]
        exact ih k (filepath.Join [d, s]) (by simp) hms
          (fun x hx => hm x (List.mem_cons_of_mem _ hx)) hr (by simpa using hfuel)

theorem findFile_at_occurrence (fs : FS) (d s0 : Str) (rest : List Str)
    (hm0 : filepath.hasMeta (filepath.Join [d, s0]) = false)
    (hmeta : ∀ s ∈ rest, filepath.hasMeta s = false)
    (hl : fs.lstat (filepath.Join [d, s0]) = true)
    (hr : resolves fs (filepath.Join [d, s0]) rest = true) :
    findFile fs (rest.length + 1) d (s0 :: rest)
        = some (.ret (joinAll d (s0 :: rest), true, none)) ∧
      fs.lstat (joinAll d (s0 :: rest)) = true := by
  have hg : filepath.Glob fs (filepath.Join [d, s0]) = .ok [filepath.Join [d, s0]] := by
    rw [Glob_of_no_meta fs _ hm0, hl]
    rfl
  cases rest with
  | nil => exact ⟨findFile_of_glob_last fs 0 d s0 _ hg, hl⟩
  | cons r rest =>
    rw [findFile_of_glob_one fs _ d s0 _ (r :: rest) hg (by simp)]
    exact findFile_resolves fs (r :: rest) _ (filepath.Join [d, s0]) (by simp) hm0 hmeta hr
      (le_refl _)

theorem FiniteTree_hasMeta (fs : FS) (s0 dir : Str) (ht : FiniteTree fs s0 dir) :
    filepath.hasMeta (filepath.Join [dir, s0]) = false := by
  cases ht with
  | denied _ h _ => exact h
  | listed _ _ h _ _ => exact h

theorem findFile_absent (fs : FS) (s0 : Str) (rest : List Str) (dir : Str)
    (ht : FiniteTree fs s0 dir) (hne : ¬ ExistsUnder fs s0 dir) :
    ∃ fuel, findFile fs fuel dir (s0 :: rest) = some (.ret ([], false, none)) := by
  induction ht with
  | denied dir hm hread =>
    have hl : fs.lstat (filepath.Join [dir, s0]) = false := by
      cases h : fs.lstat (filepath.Join [dir, s0]) with
      | false => rfl
      | true => exact absurd (ExistsUnder.inDir dir h) hne
    have hg := Glob_of_no_meta fs _ hm
    rw [hl] at hg
    exact ⟨1, findFile_of_denied fs 0 dir s0 rest hg hread⟩
  | listed dir es hm hread _ ih =>
    have hl : fs.lstat (filepath.Join [dir, s0]) = false := by
      cases h : fs.lstat (filepath.Join [dir, s0]) with
      | false => rfl
      | true => exact absurd (ExistsUnder.inDir dir h) hne
    have hg := Glob_of_no_meta fs _ hm
    rw [hl] at hg
    obtain ⟨bound, hb⟩ := exists_uniform_fuel fs dir (s0 :: rest) es
      (fun x hx hd => by
        obtain ⟨n, hn⟩ := ih x hx hd
          (fun hex => hne (ExistsUnder.inSubdir dir es x hread hx hd hex))
        exact ⟨n, [], hn⟩)
    refine ⟨bound + 1, ?_⟩
    rw [findFile_of_entries fs bound dir s0 rest es hg hread]
    exact findFileEntries_all_notFound _ dir es (hb bound (le_refl _))

theorem findFile_firstOccurrence (fs : FS) (s0 : Str) (rest : List Str)
    (hmeta : ∀ s ∈ rest, filepath.hasMeta s = false) (dir d : Str)
    (hfirst : FirstOccurrence fs s0 dir d) (ht : FiniteTree fs s0 dir)
    (hres : resolves fs (filepath.Join [d, s0]) rest = true) :
    ∃ bound, ∀ fuel, bound ≤ fuel →
      findFile fs fuel dir (s0 :: rest) = some (.ret (joinAll d (s0 :: rest), true, none)) := by
  induction hfirst with
  | here dir hl =>
    obtain ⟨h1, _⟩ := findFile_at_occurrence fs dir s0 rest (FiniteTree_hasMeta fs s0 dir ht)
      hmeta hl hres
    exact ⟨_, fun fuel hfuel => findFile_mono fs _ fuel _ _ _ hfuel h1⟩
  | later dir before after e d hl hread hd hbefore _ ih =>
    have hg := Glob_of_no_meta fs _ (FiniteTree_hasMeta fs s0 dir ht)
    rw [hl] at hg
    cases ht with
    | denied _ _ hr => rw [hread] at hr; cases hr
    | listed _ es _ hr hch =>
      rw [hread] at hr
      injection hr with hr
      subst hr
      obtain ⟨b1, hb1⟩ := ih (hch e (by simp) hd) hres
      obtain ⟨b2, hb2⟩ := exists_uniform_fuel fs dir (s0 :: rest) before
        (fun x hx hxd => by
          obtain ⟨n, hn⟩ := findFile_absent fs s0 rest _
            (hch x (List.mem_append_left _ hx) hxd) (hbefore x hx hxd)
          exact ⟨n, [], hn⟩)
      refine ⟨max b1 b2 + 1, fun fuel hfuel => ?_⟩
      obtain ⟨k, rfl⟩ : ∃ k, fuel = k + 1 := ⟨fuel - 1, by omega⟩
      rw [findFile_of_entries fs k dir s0 rest _ hg hread]
      exact findFileEntries_found _ dir before after e _ hd
        (hb2 k (by omega)) (hb1 k (by omega))

theorem exists_first_entry (P : DirEntry → Prop) (es : List DirEntry)
    (h : ∃ e ∈ es, P e) :
    ∃ before e after, es = before ++ e :: after ∧ P e ∧ ∀ x ∈ before, ¬ P x := by
  induction es with
  | nil =>
    obtain ⟨e, he, _⟩ := h
    exact absurd he (List.not_mem_nil e)
  | cons a tl ih =>
    by_cases ha : P a
    · exact ⟨[], a, tl, rfl, ha, fun x hx => absurd hx (List.not_mem_nil x)⟩
    · obtain ⟨e, he, hpe⟩ := h
      have htl : ∃ e ∈ tl, P e := by
        rcases List.mem_cons.mp he with rfl | he
        · exact absurd hpe ha
        · exact ⟨e, he, hpe⟩
      obtain ⟨before, x, after, heq, hpx, hb⟩ := ih htl
      refine ⟨a :: before, x, after, by simp [heq], hpx, fun y hy => ?_⟩
      rcases List.mem_cons.mp hy with rfl | hy
      · exact ha
      · exact hb y hy

theorem exists_firstOccurrence (fs : FS) (s0 dir : Str) (ht : FiniteTree fs s0 dir)
    (hex : ExistsUnder fs s0 dir) : ∃ d, FirstOccurrence fs s0 dir d := by
  induction ht with
  | denied dir _ hread =>
    cases hex with
    | inDir _ h => exact ⟨dir, FirstOccurrence.here dir h⟩
    | inSubdir _ es e h _ _ _ => rw [hread] at h; cases h
  | listed dir es _ hread _ ih =>
    cases hl : fs.lstat (filepath.Join [dir, s0]) with
    | true => exact ⟨dir, FirstOccurrence.here dir hl⟩
    | false =>
      have hsub : ∃ e ∈ es, e.isDir = true ∧ ExistsUnder fs s0 (filepath.Join [dir, e.name]) := by
        cases hex with
        | inDir _ h => rw [hl] at h; cases h
        | inSubdir _ es2 e h hmem hd hsub =>
          rw [hread] at h
          injection h with h
          subst h
          exact ⟨e, hmem, hd, hsub⟩
      obtain ⟨before, e, after, heq, ⟨hd, hex2⟩, hb⟩ := exists_first_entry _ es hsub
      subst heq
      obtain ⟨d, hd2⟩ := ih e (by simp) hd hex2
      exact ⟨d, FirstOccurrence.later dir before after e d hl hread hd
        (fun x hx hxd hxe => hb x hx ⟨hxd, hxe⟩) hd2⟩

theorem resolves_exists (fs : FS) (segs : List Str) :
    ∀ d, segs ≠ [] → resolves fs d segs = true → fs.lstat (joinAll d segs) = true := by
  induction segs with
  | nil => intro _ h; exact absurd rfl h
  | cons s rest ih =>
    intro d _ hr
    simp only [resolves, Bool.and_eq_true] at hr
    cases rest with
    | nil => exact hr.1
    | cons r rest => exact ih (filepath.Join [d, s]) (by simp) hr.2

namespace filepath

theorem IsAbs_Join (d s : Str) (h : IsAbs d = true) : IsAbs (Join [d, s]) = true := by
  cases d with
  | nil => simp [IsAbs, strings.HasPrefix] at h
  | cons c t =>
    have hc : Separator = c := by
      simpa [IsAbs, strings.HasPrefix, List.isPrefixOf] using h
    subst hc
    simp [Join, Clean, strings.Join, IsAbs, strings.HasPrefix, List.isPrefixOf]

end filepath

theorem joinAll_abs (names : List Str) :
    ∀ d, filepath.IsAbs d = true → filepath.IsAbs (joinAll d names) = true := by
  induction names with
  | nil => intro d h; exact h
  | cons n rest ih => intro d h; exact ih _ (filepath.IsAbs_Join d n h)

theorem FirstOccurrence_exists (fs : FS) (s0 dir d : Str)
    (h : FirstOccurrence fs s0 dir d) : fs.lstat (filepath.Join [d, s0]) = true := by
  induction h with
  | here _ h => exact h
  | later _ _ _ _ _ _ _ _ _ _ ih => exact ih

theorem FirstOccurrence_abs (fs : FS) (s0 dir d : Str)
    (h : FirstOccurrence fs s0 dir d) (habs : filepath.IsAbs dir = true) :
    filepath.IsAbs d = true := by
  induction h with
  | here _ _ => exact habs
  | later dir _ _ e _ _ _ _ _ _ ih => exact ih (filepath.IsAbs_Join dir e.name habs)

theorem getLast?_drop_of_cons (l : List Str) (i : Nat) (s0 : Str) (rest : List Str)
    (h : l.drop i = s0 :: rest) : l.getLast? = (s0 :: rest).getLast? := by
  have : l = l.take i ++ (s0 :: rest) := by rw [← h, List.take_append_drop]
  rw [this, List.getLast?_append_of_ne_nil _ (by simp)]

theorem joinAll_last (d : Str) (segs : List Str) (l : Str) (hl : IsName l)
    (h : segs.getLast? = some l) :
    (strings.Split (joinAll d segs) filepath.Separator).getLast? = some l := by
  obtain ⟨init, rfl⟩ : ∃ init, segs = init ++ [l] := by
    have hne : segs ≠ [] := by
      intro e
      rw [e] at h
      cases h
    refine ⟨segs.dropLast, ?_⟩
    have h2 := List.dropLast_append_getLast hne
    rw [List.getLast?_eq_getLast _ hne] at h
    injection h with h
    rw [h] at h2
    exact h2.symm
  rw [joinAll_concat]
  exact filepath.Join_last _ l hl

/-- C2 (amended): for a relative path with segments `s0..sn`, let `i` be the
first index that `findAbsPath` does not skip and `dir` the root (the working
directory when no root is given). When the tree of directories under `dir` is
finite, each of its directories can be listed or is denied, the path of `si`
in each of them and the segments after `si` have no glob metacharacter, `si`
exists somewhere in the tree, and under the first directory `d` of the search
order that contains `si` the segments after `si` resolve one after the other,
`findAbsPath` succeeds (with every large enough bound on the recursion) and
returns `d/si/../sn`, joined one segment at a time; this path exists, its last
segment is `sn` when `sn` is a plain name, and it is absolute when `dir` is.
For a path that is a single name the conditions on the later segments are
empty. -/
theorem findAbsPath_resolves (fs : FS) (file start dir : Str) (i : Nat) (s0 : Str)
    (rest : List Str)
    (hrel : filepath.IsAbs file = false)
    (hdir : (if start = [] then fs.getwd else .ok start) = .ok dir)
    (hi : FirstUnskipped dir (strings.Split file filepath.Separator) i)
    (hsegs : (strings.Split file filepath.Separator).drop i = s0 :: rest)
    (hmeta : ∀ s ∈ rest, filepath.hasMeta s = false)
    (htree : FiniteTree fs s0 dir) (hex : ExistsUnder fs s0 dir)
    (hocc : ∀ d, FirstOccurrence fs s0 dir d →
      resolves fs (filepath.Join [d, s0]) rest = true) :
    ∃ bound d, FirstOccurrence fs s0 dir d ∧
      (∀ fuel, bound ≤ fuel →
        findAbsPath fs fuel file start = some (.ret (joinAll d (s0 :: rest), none))) ∧
      fs.lstat (joinAll d (s0 :: rest)) = true ∧
      (∀ l, IsName l → (strings.Split file filepath.Separator).getLast? = some l →
        (strings.Split (joinAll d (s0 :: rest)) filepath.Separator).getLast? = some l) ∧
      (filepath.IsAbs dir = true → filepath.IsAbs (joinAll d (s0 :: rest)) = true) := by
  obtain ⟨d, hd⟩ := exists_firstOccurrence fs s0 dir htree hex
  have hres := hocc d hd
  obtain ⟨n, hn⟩ := findFile_firstOccurrence fs s0 rest hmeta dir d hd htree hres
  have hl0 := FirstOccurrence_exists fs s0 dir d hd
  refine ⟨n, d, hd, fun fuel hfuel => ?_, ?_, fun l hname hlast => ?_,
    fun habs => joinAll_abs _ d (FirstOccurrence_abs fs s0 dir d hd habs)⟩
  · rw [findAbsPath_eq_first fs fuel file start dir i hrel hdir hi, hsegs, hn fuel hfuel]
    rfl
  · have : resolves fs d (s0 :: rest) = true := by simp [resolves, hl0, hres]
    exact resolves_exists fs (s0 :: rest) d (by simp) this
  · rw [getLast?_drop_of_cons _ i s0 rest hsegs] at hlast
    exact joinAll_last d _ l hname hlast

theorem fsTwoDirs_finite (f : Str) (hf : filepath.hasMeta f = false) :
    FiniteTree fsTwoDirs f "/r".toList := by
  refine FiniteTree.listed _ [⟨"a".toList, true⟩, ⟨"b".toList, true⟩]
    (hasMeta_Join _ f (by decide) hf) (by decide) ?_
  intro e he _
  simp only [List.mem_cons, List.mem_singleton, List.not_mem_nil, or_false] at he
  rcases he with rfl | rfl
  · exact FiniteTree.listed _ [] (hasMeta_Join _ f (by decide) hf) (by decide)
      (fun x hx => absurd hx (List.not_mem_nil x))
  · refine FiniteTree.listed _ [⟨"foo.go".toList, false⟩] (hasMeta_Join _ f (by decide) hf)
      (by decide) ?_
    intro x hx hd
    rw [List.mem_singleton] at hx
    subst hx
    exact absurd hd (by decide)

theorem fsTwoDirs_first (d : Str) (h : FirstOccurrence fsTwoDirs "b".toList "/r".toList d) :
    resolves fsTwoDirs (filepath.Join [d, "b".toList]) ["foo.go".toList] = true := by
  cases h with
  | here _ _ => decide
  | later _ _ _ _ _ hl _ _ _ _ => exact absurd hl (by decide)

/-- C2 (witness): in the tree with `/r/a` empty and `/r/b/foo.go`, the path
`b/foo.go` is resolved from the root `/r` to `/r/b/foo.go`. -/
theorem findAbsPath_resolves_witness :
    (filepath.IsAbs "b/foo.go".toList = false ∧
      FirstUnskipped "/r".toList (strings.Split "b/foo.go".toList filepath.Separator) 0 ∧
      (strings.Split "b/foo.go".toList filepath.Separator).drop 0
        = ["b".toList, "foo.go".toList] ∧
      (∀ s ∈ ["foo.go".toList], filepath.hasMeta s = false) ∧
      FiniteTree fsTwoDirs "b".toList "/r".toList ∧
      ExistsUnder fsTwoDirs "b".toList "/r".toList ∧
      (∀ d, FirstOccurrence fsTwoDirs "b".toList "/r".toList d →
        resolves fsTwoDirs (filepath.Join [d, "b".toList]) ["foo.go".toList] = true)) ∧
    (∃ bound d, FirstOccurrence fsTwoDirs "b".toList "/r".toList d ∧
      (∀ fuel, bound ≤ fuel →
        findAbsPath fsTwoDirs fuel "b/foo.go".toList "/r".toList
          = some (.ret (joinAll d ["b".toList, "foo.go".toList], none))) ∧
      fsTwoDirs.lstat (joinAll d ["b".toList, "foo.go".toList]) = true ∧
      (∀ l, IsName l →
        (strings.Split "b/foo.go".toList filepath.Separator).getLast? = some l →
        (strings.Split (joinAll d ["b".toList, "foo.go".toList])
          filepath.Separator).getLast? = some l) ∧
      (filepath.IsAbs "/r".toList = true →
        filepath.IsAbs (joinAll d ["b".toList, "foo.go".toList]) = true)) ∧
    findAbsPath fsTwoDirs 2 "b/foo.go".toList "/r".toList
      = some (.ret ("/r/b/foo.go".toList, none)) :=
  have hi : FirstUnskipped "/r".toList
      (strings.Split "b/foo.go".toList filepath.Separator) 0 :=
    ⟨by decide, fun j hj => absurd hj (Nat.not_lt_zero j), by decide⟩
  ⟨⟨by decide, hi, by decide, by decide, fsTwoDirs_finite _ (by decide),
      ExistsUnder.inDir _ (by decide), fsTwoDirs_first⟩,
    findAbsPath_resolves fsTwoDirs "b/foo.go".toList "/r".toList "/r".toList 0 "b".toList
      ["foo.go".toList] (by decide) (by decide) hi (by decide) (by decide)
      (fsTwoDirs_finite _ (by decide)) (ExistsUnder.inDir _ (by decide))
      fsTwoDirs_first,
    by decide⟩

/-- C2 (counterexample): in the tree with `/r/a` empty and `/r/b/foo.go`, the
name `foo.go` exists exactly once under `/r`, and yet `findAbsPath` fails for
`a/foo.go` (the directory `a` is found first and does not contain the file)
and for `x/foo.go` (the leading segment does not exist), whatever the bound on
the recursion. It also fails for `a/foo.go` in the tree with `/r/a` empty and
`/r/c/a/foo.go` (the first directory named `a` is the wrong one), for `foo.go`
when listing `/r/a` fails with an input/output error, and for `foo.go` from
the root `/r/xfoo.go`, whose path ends with `foo.go`. -/
theorem findAbsPath_unique_name_fails :
    FiniteTree fsTwoDirs "foo.go".toList "/r".toList ∧
    ExistsUnder fsTwoDirs "foo.go".toList "/r".toList ∧
    (∀ p, fsTwoDirs.lstat p = true →
      (strings.Split p filepath.Separator).getLast? = some "foo.go".toList →
      p = "/r/b/foo.go".toList) ∧
    findAbsPath fsTwoDirs 5 "a/foo.go".toList "/r".toList
      = some (.ret ([], some (.cannotFindInRoot "/r".toList []))) ∧
    findAbsPath fsTwoDirs 5 "x/foo.go".toList "/r".toList
      = some (.ret ([], some (.cannotFindInRoot "/r".toList []))) ∧
    (∀ fuel p, findAbsPath fsTwoDirs fuel "a/foo.go".toList "/r".toList
      ≠ some (.ret (p, none))) ∧
    (∀ fuel p, findAbsPath fsTwoDirs fuel "x/foo.go".toList "/r".toList
      ≠ some (.ret (p, none))) ∧
    (fsFalseStart.lstat "/r/c/a/foo.go".toList = true ∧
      findAbsPath fsFalseStart 5 "a/foo.go".toList "/r".toList
        = some (.ret ([], some (.cannotFindInRoot "/r".toList []))) ∧
      ∀ fuel p, findAbsPath fsFalseStart fuel "a/foo.go".toList "/r".toList
        ≠ some (.ret (p, none))) ∧
    (fsIoError.lstat "/r/b/foo.go".toList = true ∧
      findAbsPath fsIoError 5 "foo.go".toList "/r".toList
        = some (.ret ([], some (.cannotFindFile
            (.readDirFailed "/r/a".toList (.os 5)) "foo.go".toList))) ∧
      ∀ fuel p, findAbsPath fsIoError fuel "foo.go".toList "/r".toList
        ≠ some (.ret (p, none))) ∧
    (fsSuffixRoot.lstat "/r/xfoo.go/foo.go".toList = true ∧
      findAbsPath fsSuffixRoot 5 "foo.go".toList "/r/xfoo.go".toList
        = some (.ret ([], some .unexpected)) ∧
      ∀ fuel p, findAbsPath fsSuffixRoot fuel "foo.go".toList "/r/xfoo.go".toList
        ≠ some (.ret (p, none))) := by
  refine ⟨fsTwoDirs_finite _ (by decide),
    ExistsUnder.inSubdir _ [⟨"a".toList, true⟩, ⟨"b".toList, true⟩] ⟨"b".toList, true⟩
      (by decide) (by decide) rfl (ExistsUnder.inDir _ (by decide)), ?_, by decide, by decide,
    findAbsPath_never_of_error _ 5 _ _ (.cannotFindInRoot "/r".toList []) (by decide),
    findAbsPath_never_of_error _ 5 _ _ (.cannotFindInRoot "/r".toList []) (by decide),
    ⟨by decide, by decide,
      findAbsPath_never_of_error _ 5 _ _ (.cannotFindInRoot "/r".toList []) (by decide)⟩,
    ⟨by decide, by decide,
      findAbsPath_never_of_error _ 5 _ _
        (.cannotFindFile (.readDirFailed "/r/a".toList (.os 5)) "foo.go".toList) (by decide)⟩,
    ⟨by decide, by decide,
      findAbsPath_never_of_error _ 5 _ _ .unexpected (by decide)⟩⟩
  intro p hp hlast
  have hmem : p ∈ ["/r".toList, "/r/a".toList, "/r/b".toList, "/r/b/foo.go".toList] := by
    simpa [fsTwoDirs, mkFS] using hp
  simp only [List.mem_cons, List.mem_singleton, List.not_mem_nil, or_false] at hmem
  rcases hmem with rfl | rfl | rfl | rfl
  · exact absurd hlast (by decide)
  · exact absurd hlast (by decide)
  · exact absurd hlast (by decide)
  · rfl
